import Mathlib

/-!
Verification of the layered-merge / documentation-rendering module
(`lib/python/qmk/cli/xap/docs.py`).

The development shallowly embeds the module:

* `Value` models the hjson-parsed values (`OrderedDict`s are association
  lists with string keys, arrays are lists, scalars are strings, integers
  and booleans).
* `addEntry`, `foldEntries`, `goDicts`, `mergeDicts` embed
  `_merge_ordered_dicts` and its inner `add_entry`.  Python exceptions
  (`IndexError` on `v[0]`, `TypeError` on `x + list` or bad subscripts,
  `AttributeError` on `.items()` of a non-dict, `KeyError` on missing
  keys) are modelled by `Except PyErr`.  A fuel parameter makes the
  nested recursion total; fuel is consumed only when `add_entry` calls
  `_merge_ordered_dicts` recursively, so all other behaviour is
  fuel-independent.
* `updateNameTableSection` (instantiated as `updateTypeDocs` /
  `updateTermDefinitions`) and `updateResponseFlags` embed the three
  section renderers; `renderPhase`, `writePhase` and `processLayer`
  embed the per-layer part of `xap_generate_docs` (the `try/except`
  around the renderers and the document writing loop).
* A small heap model (`Heap`, `HVal`, `HObj`, `heapMerge`, ...) embeds
  the same merge with Python's reference semantics, to reason about
  in-place mutation and aliasing of the input trees.
-/

/-- Python exception kinds that the embedded code can raise, plus
`fuelOut` for exhaustion of the recursion fuel of the model. -/

inductive PyErr where
  | keyError
  | typeError
  | indexError
  | attributeError
  | fuelOut
  deriving DecidableEq

/-- An hjson-parsed value: scalars, arrays (`list`) and `OrderedDict`s
(`dict`, an ordered association list with string keys). -/
inductive Value where
  | str : String → Value
  | int : Int → Value
  | bool : Bool → Value
  | list : List Value → Value
  | dict : List (String × Value) → Value

/-- An `OrderedDict` from the source: an ordered association list. -/
abbrev Dict := List (String × Value)

mutual

def decEqValue : (a b : Value) → Decidable (a = b)
  | Value.str a, Value.str b =>
    match decEq a b with
    | isTrue h => isTrue (congrArg Value.str h)
    | isFalse h => isFalse (fun he => h (Value.str.inj he))
  | Value.str _, Value.int _ => isFalse (fun h => Value.noConfusion h)
  | Value.str _, Value.bool _ => isFalse (fun h => Value.noConfusion h)
  | Value.str _, Value.list _ => isFalse (fun h => Value.noConfusion h)
  | Value.str _, Value.dict _ => isFalse (fun h => Value.noConfusion h)
  | Value.int _, Value.str _ => isFalse (fun h => Value.noConfusion h)
  | Value.int a, Value.int b =>
    match decEq a b with
    | isTrue h => isTrue (congrArg Value.int h)
    | isFalse h => isFalse (fun he => h (Value.int.inj he))
  | Value.int _, Value.bool _ => isFalse (fun h => Value.noConfusion h)
  | Value.int _, Value.list _ => isFalse (fun h => Value.noConfusion h)
  | Value.int _, Value.dict _ => isFalse (fun h => Value.noConfusion h)
  | Value.bool _, Value.str _ => isFalse (fun h => Value.noConfusion h)
  | Value.bool _, Value.int _ => isFalse (fun h => Value.noConfusion h)
  | Value.bool a, Value.bool b =>
    match decEq a b with
    | isTrue h => isTrue (congrArg Value.bool h)
    | isFalse h => isFalse (fun he => h (Value.bool.inj he))
  | Value.bool _, Value.list _ => isFalse (fun h => Value.noConfusion h)
  | Value.bool _, Value.dict _ => isFalse (fun h => Value.noConfusion h)
  | Value.list _, Value.str _ => isFalse (fun h => Value.noConfusion h)
  | Value.list _, Value.int _ => isFalse (fun h => Value.noConfusion h)
  | Value.list _, Value.bool _ => isFalse (fun h => Value.noConfusion h)
  | Value.list a, Value.list b =>
    match decEqValueList a b with
    | isTrue h => isTrue (congrArg Value.list h)
    | isFalse h => isFalse (fun he => h (Value.list.inj he))
  | Value.list _, Value.dict _ => isFalse (fun h => Value.noConfusion h)
  | Value.dict _, Value.str _ => isFalse (fun h => Value.noConfusion h)
  | Value.dict _, Value.int _ => isFalse (fun h => Value.noConfusion h)
  | Value.dict _, Value.bool _ => isFalse (fun h => Value.noConfusion h)
  | Value.dict _, Value.list _ => isFalse (fun h => Value.noConfusion h)
  | Value.dict a, Value.dict b =>
    match decEqEntryList a b with
    | isTrue h => isTrue (congrArg Value.dict h)
    | isFalse h => isFalse (fun he => h (Value.dict.inj he))
termination_by a _ => sizeOf a

def decEqValueList : (a b : List Value) → Decidable (a = b)
  | [], [] => isTrue rfl
  | [], _ :: _ => isFalse (fun h => List.noConfusion h)
  | _ :: _, [] => isFalse (fun h => List.noConfusion h)
  | x :: xs, y :: ys =>
    match decEqValue x y, decEqValueList xs ys with
    | isTrue h1, isTrue h2 => isTrue (by rw [h1, h2])
    | isFalse h1, _ => isFalse (by intro he; injection he with e1 _; exact h1 e1)
    | _, isFalse h2 => isFalse (by intro he; injection he with _ e2; exact h2 e2)
termination_by a _ => sizeOf a

def decEqEntryList : (a b : List (String × Value)) → Decidable (a = b)
  | [], [] => isTrue rfl
  | [], _ :: _ => isFalse (fun h => List.noConfusion h)
  | _ :: _, [] => isFalse (fun h => List.noConfusion h)
  | (k1, v1) :: xs, (k2, v2) :: ys =>
    match decEq k1 k2, decEqValue v1 v2, decEqEntryList xs ys with
    | isTrue hk, isTrue hv, isTrue ht => isTrue (by rw [hk, hv, ht])
    | isFalse hk, _, _ =>
      isFalse (by intro he; injection he with e1 _; exact hk (congrArg Prod.fst e1))
    | _, isFalse hv, _ =>
      isFalse (by intro he; injection he with e1 _; exact hv (congrArg Prod.snd e1))
    | _, _, isFalse ht => isFalse (by intro he; injection he with _ e2; exact ht e2)
termination_by a _ => sizeOf a

end

instance : DecidableEq Value := decEqValue

instance {ε α : Type} [DecidableEq ε] [DecidableEq α] : DecidableEq (Except ε α) := fun a b =>
  match a, b with
  | Except.ok x, Except.ok y =>
    match decEq x y with
    | isTrue h => isTrue (congrArg Except.ok h)
    | isFalse h => isFalse fun he => h (Except.ok.inj he)
  | Except.ok _, Except.error _ => isFalse fun h => Except.noConfusion h
  | Except.error _, Except.ok _ => isFalse fun h => Except.noConfusion h
  | Except.error x, Except.error y =>
    match decEq x y with
    | isTrue h => isTrue (congrArg Except.error h)
    | isFalse h => isFalse fun he => h (Except.error.inj he)

/-- Python `d[k]` read on a string-keyed dict (first matching entry). -/
def lookup : Dict → String → Option Value
  | [], _ => none
  | (k', v') :: rest, k => if k' = k then some v' else lookup rest k

/-- Python `k in d` for a dict. -/
def containsKey (d : Dict) (k : String) : Bool :=
  (lookup d k).isSome

/-- Python `d[k] = v`: updates the existing entry in place (keeping its
position) or appends a new entry at the end. -/
def assign : Dict → String → Value → Dict
  | [], k, v => [(k, v)]
  | (k', v') :: rest, k, v => if k' = k then (k, v) :: rest else (k', v') :: assign rest k v

/-- Python `del d[k]` (the callers only erase keys that are present). -/
def eraseKey : Dict → String → Dict
  | [], _ => []
  | (k', v') :: rest, k => if k' = k then rest else (k', v') :: eraseKey rest k

/-- The trailing step of `add_entry`'s dict branch:
`if "!reset!" in target[k]: del target[k]["!reset!"]`. -/
def stripReset (d : Dict) : Dict :=
  if containsKey d "!reset!" then eraseKey d "!reset!" else d

/-- A dict whose keys are pairwise distinct, as Python dicts always are. -/
def NodupKeys (d : Dict) : Prop :=
  (d.map Prod.fst).Nodup

instance : DecidablePred NodupKeys := fun d =>
  inferInstanceAs (Decidable ((d.map Prod.fst).Nodup))

/-- `add_entry(target, k, v)` from `_merge_ordered_dicts`, parameterised
by the recursive `_merge_ordered_dicts` call (`recMerge`) so that the
whole cluster can be tied together by structural recursion on fuel. -/
def addEntryP (recMerge : List Value → Except PyErr Dict)
    (target : Dict) (k : String) (v : Value) : Except PyErr Dict :=
  match v with
  | Value.dict vd =>
    if containsKey target k then
      match (if containsKey vd "!reset!" then Except.ok vd
             else
               match lookup target k with
               | some old => recMerge [old, Value.dict vd]
               | none => Except.error PyErr.keyError) with
      | Except.error e => Except.error e
      | Except.ok nd => Except.ok (assign target k (Value.dict (stripReset nd)))
    else Except.ok (assign target k (Value.dict vd))
  | Value.list vl =>
    if containsKey target k then
      match vl with
      | [] => Except.error PyErr.indexError
      | v0 :: _ =>
        match v0 with
        | Value.str s =>
          if s = "!reset!" then Except.ok (assign target k (Value.list vl.tail))
          else
            match lookup target k with
            | some (Value.list tl) => Except.ok (assign target k (Value.list (tl ++ vl)))
            | some _ => Except.error PyErr.typeError
            | none => Except.error PyErr.keyError
        | _ =>
          match lookup target k with
          | some (Value.list tl) => Except.ok (assign target k (Value.list (tl ++ vl)))
          | some _ => Except.error PyErr.typeError
          | none => Except.error PyErr.keyError
    else Except.ok (assign target k v)
  | _ => Except.ok (assign target k v)

/-- The inner loop `for (k,v) in d.items(): add_entry(result, k, v)`. -/
def foldEntriesP (recMerge : List Value → Except PyErr Dict)
    (target : Dict) : List (String × Value) → Except PyErr Dict
  | [] => Except.ok target
  | (k, v) :: rest =>
    match addEntryP recMerge target k v with
    | Except.error e => Except.error e
    | Except.ok t' => foldEntriesP recMerge t' rest

/-- The outer loop `for d in dicts` of `_merge_ordered_dicts`; a non-dict
element raises `AttributeError` at `d.items()`. -/
def goDictsP (recMerge : List Value → Except PyErr Dict)
    (target : Dict) : List Value → Except PyErr Dict
  | [] => Except.ok target
  | Value.dict es :: rest =>
    match foldEntriesP recMerge target es with
    | Except.error e => Except.error e
    | Except.ok t' => goDictsP recMerge t' rest
  | _ :: _ => Except.error PyErr.attributeError

/-- `_merge_ordered_dicts(dicts)`: folds every entry of every input dict
into a fresh result dict via `add_entry`.  One unit of fuel is consumed
each time `add_entry` re-enters `_merge_ordered_dicts`; with enough fuel
this is exactly the Python function. -/
def mergeDicts : Nat → List Value → Except PyErr Dict
  | 0, _ => Except.error PyErr.fuelOut
  | fuel + 1, ds => goDictsP (fun ds' => mergeDicts fuel ds') [] ds

/-- `add_entry` at a given fuel level: its recursive
`_merge_ordered_dicts([target[k], v])` call runs at the same fuel. -/
def addEntry (fuel : Nat) : Dict → String → Value → Except PyErr Dict :=
  addEntryP (fun ds' => mergeDicts fuel ds')

/-- The entry-folding loop at a given fuel level. -/
def foldEntries (fuel : Nat) : Dict → List (String × Value) → Except PyErr Dict :=
  foldEntriesP (fun ds' => mergeDicts fuel ds')

/-- The dict-folding loop at a given fuel level. -/
def goDicts (fuel : Nat) : Dict → List Value → Except PyErr Dict :=
  goDictsP (fun ds' => mergeDicts fuel ds')

/-- The whitespace characters removed by Python's `str.strip()`. -/
def isPyWhitespace (c : Char) : Bool :=
  c == ' ' || c == '\t' || c == '\n' || c == '\r' || c == '\x0b' || c == '\x0c'

/-- Python `s.strip()`: removes leading and trailing whitespace. -/
def pyStrip (s : String) : String :=
  ⟨((s.data.dropWhile isPyWhitespace).reverse.dropWhile isPyWhitespace).reverse⟩

/-- One step of the spec's left-to-right fold: merge the accumulated tree
with the next layer using the binary `_merge_ordered_dicts([acc, L])`. -/
def specBinaryFoldGo (fuel : Nat) (acc : Dict) : List Value → Except PyErr Dict
  | [] => Except.ok acc
  | l :: rest =>
    match mergeDicts fuel [Value.dict acc, l] with
    | Except.error e => Except.error e
    | Except.ok acc' => specBinaryFoldGo fuel acc' rest

/-- The spec's formulation of the n-layer merge, written from the spec's
words for comparison with the n-ary `_merge_ordered_dicts` call:
`result = merge(merge(merge(null, L1), L2), L3)...`, where
`merge(null, L1)` is `L1` itself (the spec: if `existing` is absent the
result is `incoming`), and each later step is the binary merge. -/
def specBinaryFold (fuel : Nat) : List Value → Except PyErr Dict
  | [] => Except.ok []
  | l :: rest =>
    match l with
    | Value.dict d => specBinaryFoldGo fuel d rest
    | _ => Except.error PyErr.attributeError

mutual

/-- Python `repr` of a value as the f-strings would render containers
(quote escaping inside strings is not modelled; no rendered text in the
repository's data depends on it). -/
def pyReprValue : Value → String
  | Value.str s => "'" ++ s ++ "'"
  | Value.int n => toString n
  | Value.bool b => if b then "True" else "False"
  | Value.list l => "[" ++ pyReprElems l ++ "]"
  | Value.dict d => "OrderedDict([" ++ pyReprEntries d ++ "])"
termination_by v => sizeOf v

def pyReprElems : List Value → String
  | [] => ""
  | [x] => pyReprValue x
  | x :: rest => pyReprValue x ++ ", " ++ pyReprElems rest
termination_by l => sizeOf l

def pyReprEntries : List (String × Value) → String
  | [] => ""
  | [(k, v)] => "('" ++ k ++ "', " ++ pyReprValue v ++ ")"
  | (k, v) :: rest => "('" ++ k ++ "', " ++ pyReprValue v ++ "), " ++ pyReprEntries rest
termination_by l => sizeOf l

end

/-- Python `str(v)` as used by the renderers' f-string interpolations. -/
def pyStr (v : Value) : String :=
  match v with
  | Value.str s => s
  | Value.int n => toString n
  | Value.bool b => if b then "True" else "False"
  | Value.list l => pyReprValue (Value.list l)
  | Value.dict d => pyReprValue (Value.dict d)

/-- Python `s1 < s2` on strings: lexicographic by code point. -/
def charListLt : List Char → List Char → Bool
  | [], [] => false
  | [], _ :: _ => true
  | _ :: _, [] => false
  | c1 :: r1, c2 :: r2 =>
    if c1 < c2 then true else if c2 < c1 then false else charListLt r1 r2

def strLtB (a b : String) : Bool :=
  charListLt a.data b.data

/-- Stable insertion used to model Python's `sorted(..., key=lambda x: x[0])`. -/
def insertByKey (p : String × Value) : List (String × Value) → List (String × Value)
  | [] => [p]
  | q :: rest => if strLtB q.1 p.1 then q :: insertByKey p rest else p :: q :: rest

/-- `sorted(defs.items(), key=lambda x: x[0])`. -/
def sortByKey (d : Dict) : Dict :=
  d.foldr insertByKey []

/-- The shared body of `_update_type_docs` / `_update_term_definitions`:
the two-column name table with rows sorted ascending by key. -/
def renderNameTable (defs : Dict) : String :=
  let rows := (sortByKey defs).map (fun p => "| _" ++ p.1 ++ "_ | " ++ pyStr p.2 ++ " |")
  "| Name | Definition |\n| -- | -- |\n" ++ String.intercalate "\n" rows ++ "\n"

/-- `overall['documentation'][key] = text`.  A missing `documentation`
key raises `KeyError`; subscript assignment into a non-dict raises
`TypeError`.  Errors carry the tree state for the driver's diagnostic
dump. -/
def setDocKey (t : Dict) (key : String) (text : String) : Except (Dict × PyErr) Dict :=
  match lookup t "documentation" with
  | some (Value.dict docd) =>
    Except.ok (assign t "documentation" (Value.dict (assign docd key (Value.str text))))
  | some _ => Except.error (t, PyErr.typeError)
  | none => Except.error (t, PyErr.keyError)

/-- `_update_type_docs` and `_update_term_definitions` are textually
identical up to the two key strings; this is their common body.
Reading a missing source key raises `KeyError`; `.items()` on a non-dict
raises `AttributeError`. -/
def updateNameTableSection (srcKey docKey : String) (t : Dict) : Except (Dict × PyErr) Dict :=
  match lookup t srcKey with
  | some (Value.dict defs) => setDocKey t docKey (renderNameTable defs)
  | some _ => Except.error (t, PyErr.attributeError)
  | none => Except.error (t, PyErr.keyError)

/-- `_update_type_docs(overall)`. -/
def updateTypeDocs : Dict → Except (Dict × PyErr) Dict :=
  updateNameTableSection "type_docs" "!type_docs!"

/-- `_update_term_definitions(overall)`. -/
def updateTermDefinitions : Dict → Except (Dict × PyErr) Dict :=
  updateNameTableSection "term_definitions" "!term_definitions!"

/-- `{ "name": "-", "description": "-" }`, the default for missing bits. -/
def defaultBit : Value :=
  Value.dict [("name", Value.str "-"), ("description", Value.str "-")]

/-- The fill loop of `_update_response_flags`:
`for n in range(0,8): if str(n) not in flags: flags[str(n)] = {...}`. -/
def fillAux : Dict → List Nat → Dict
  | d, [] => d
  | d, n :: rest =>
    fillAux (if containsKey d (toString n) then d else assign d (toString n) defaultBit) rest

def fillBits (d : Dict) : Dict :=
  fillAux d (List.range 8)

/-- `range(7,-1,-1)`. -/
def descendingBits : List Nat :=
  [7, 6, 5, 4, 3, 2, 1, 0]

/-- `'| ' + " | ".join([f'Bit {n}' for n in range(7,-1,-1)]) + ' |'`. -/
def flagsHeader : String :=
  "| " ++ String.intercalate " | " (descendingBits.map (fun n => "Bit " ++ toString n)) ++ " |"

/-- `'|' + "|".join(['--' for n in range(7,-1,-1)]) + '|'`. -/
def flagsDividers : String :=
  "|" ++ String.intercalate "|" (descendingBits.map (fun _ => "--")) ++ "|"

/-- `flags[str(n)][field]`: `KeyError` on a missing key, `TypeError` when
subscripting a non-dict value. -/
def getBitField (flags : Dict) (n : Nat) (field : String) : Except PyErr Value :=
  match lookup flags (toString n) with
  | some (Value.dict bd) =>
    match lookup bd field with
    | some v => Except.ok v
    | none => Except.error PyErr.keyError
  | some _ => Except.error PyErr.typeError
  | none => Except.error PyErr.keyError

/-- The list of `flags[str(n)]['name']` renderings for the given bits. -/
def collectNames (flags : Dict) : List Nat → Except PyErr (List String)
  | [] => Except.ok []
  | n :: rest =>
    match getBitField flags n "name" with
    | Except.error e => Except.error e
    | Except.ok v =>
      match collectNames flags rest with
      | Except.error e => Except.error e
      | Except.ok r => Except.ok (pyStr v :: r)

/-- `'| ' + " | ".join([flags[str(n)]['name'] for n in range(7,-1,-1)]) + ' |'`. -/
def flagsNamesRow (flags : Dict) : Except PyErr String :=
  match collectNames flags descendingBits with
  | Except.error e => Except.error e
  | Except.ok names => Except.ok ("| " ++ String.intercalate " | " names ++ " |")

/-- Python `bit_desc['name'] != '-'` (true for every non-string value). -/
def isDashName (v : Value) : Bool :=
  match v with
  | Value.str s => s = "-"
  | _ => false

/-- The bullet accumulation loop of `_update_response_flags`. -/
def bulletsAux (flags : Dict) (acc : String) : List Nat → Except PyErr String
  | [] => Except.ok acc
  | n :: rest =>
    match getBitField flags n "name" with
    | Except.error e => Except.error e
    | Except.ok nameV =>
      if isDashName nameV then bulletsAux flags acc rest
      else
        match getBitField flags n "description" with
        | Except.error e => Except.error e
        | Except.ok descV =>
          bulletsAux flags (acc ++ "\n* `Bit " ++ toString n ++ "`: " ++ pyStr descV) rest

def flagsBullets (flags : Dict) : Except PyErr String :=
  bulletsAux flags "" descendingBits

/-- The rendering half of `_update_response_flags`, after the in-place
default fill: `t1` is the tree holding the filled `bits` dict `filled`,
and the table plus bullet list are written to
`documentation['!response_flags!']`. -/
def renderFlagsInto (t1 : Dict) (filled : Dict) : Except (Dict × PyErr) Dict :=
  match flagsNamesRow filled with
  | Except.error e => Except.error (t1, e)
  | Except.ok namesRow =>
    match flagsBullets filled with
    | Except.error e => Except.error (t1, e)
    | Except.ok bullets =>
      setDocKey t1 "!response_flags!"
        (flagsHeader ++ "\n" ++ flagsDividers ++ "\n" ++ namesRow ++ "\n" ++ bullets ++ "\n")

/-- `_update_response_flags(overall)`: reads `response_flags.bits`,
default-fills missing bit indices in place (the mutation of the shared
`bits` dict object is modelled by writing the filled dict back at its
place in the tree), then renders the table and bullet list into
`documentation['!response_flags!']`.  Subscripting a non-dict raises
`TypeError`. -/
def updateResponseFlags (t : Dict) : Except (Dict × PyErr) Dict :=
  match lookup t "response_flags" with
  | some (Value.dict rf) =>
    match lookup rf "bits" with
    | some (Value.dict bits) =>
      renderFlagsInto
        (assign t "response_flags" (Value.dict (assign rf "bits" (Value.dict (fillBits bits)))))
        (fillBits bits)
    | some _ => Except.error (t, PyErr.typeError)
    | none => Except.error (t, PyErr.keyError)
  | some _ => Except.error (t, PyErr.typeError)
  | none => Except.error (t, PyErr.keyError)

/-- The guarded renderer calls of `xap_generate_docs` together with their
surrounding `try/except`: on any renderer exception the driver prints an
hjson dump of the tree (carried in the error) and exits with status 1. -/
def renderPhase (t : Dict) : Except Dict Dict :=
  match (if containsKey t "type_docs" then updateTypeDocs t else Except.ok t) with
  | Except.error (dt, _) => Except.error dt
  | Except.ok t1 =>
    match (if containsKey t1 "term_definitions" then updateTermDefinitions t1
           else Except.ok t1) with
    | Except.error (dt, _) => Except.error dt
    | Except.ok t2 =>
      match (if containsKey t2 "response_flags" then updateResponseFlags t2
             else Except.ok t2) with
      | Except.error (dt, _) => Except.error dt
      | Except.ok t3 => Except.ok t3

/-- Python iteration `for e in x`: lists yield elements, strings yield
their characters, dicts yield their keys, scalars raise `TypeError`. -/
def pyIter : Value → Except PyErr (List Value)
  | Value.list vs => Except.ok vs
  | Value.str s => Except.ok (s.data.map (fun c => Value.str c.toString))
  | Value.dict d => Except.ok (d.map (fun p => Value.str p.1))
  | _ => Except.error PyErr.typeError

/-- One iteration of the writing loop:
`out_file.write(overall['documentation'][e].strip()); out_file.write('\n\n')`.
A missing key raises `KeyError` (also for hashable non-string keys, which
cannot occur in a string-keyed dict), an unhashable key (list/dict)
raises `TypeError`, and `.strip()` on a non-string raises
`AttributeError`. -/
def sectionText (docd : Dict) (e : Value) : Except PyErr String :=
  match e with
  | Value.str s =>
    match lookup docd s with
    | some (Value.str text) => Except.ok (pyStrip text ++ "\n\n")
    | some _ => Except.error PyErr.attributeError
    | none => Except.error PyErr.keyError
  | Value.int _ => Except.error PyErr.keyError
  | Value.bool _ => Except.error PyErr.keyError
  | Value.list _ => Except.error PyErr.typeError
  | Value.dict _ => Except.error PyErr.typeError

/-- The full writing loop over the `order` entries, concatenating the
text written to the output document. -/
def writeSections (docd : Dict) : List Value → Except PyErr String
  | [] => Except.ok ""
  | e :: rest =>
    match sectionText docd e with
    | Except.error err => Except.error err
    | Except.ok s =>
      match writeSections docd rest with
      | Except.error err => Except.error err
      | Except.ok r => Except.ok (s ++ r)

/-- `for e in overall['documentation']['order']: ...` — the document
assembly for one layer.  These lookups are outside the `try/except`. -/
def writePhase (t : Dict) : Except PyErr String :=
  match lookup t "documentation" with
  | some (Value.dict docd) =>
    match lookup docd "order" with
    | some ov =>
      match pyIter ov with
      | Except.error e => Except.error e
      | Except.ok entries => writeSections docd entries
    | none => Except.error PyErr.keyError
  | some _ => Except.error PyErr.typeError
  | none => Except.error PyErr.keyError

/-- The possible outcomes of processing one layer in
`xap_generate_docs`: a written document, the `except:` handler's
dump-then-`exit(1)`, or an uncaught exception (which also aborts the
whole run with a non-zero status, but prints no tree dump). -/
inductive LayerOutcome where
  | ok : Dict → String → LayerOutcome
  | dumpExit : Dict → LayerOutcome
  | uncaught : PyErr → LayerOutcome

/-- Processing of one layer after the merge: renderer refresh under
`try/except`, then document assembly. -/
def processLayer (t : Dict) : LayerOutcome :=
  match renderPhase t with
  | Except.error dumped => LayerOutcome.dumpExit dumped
  | Except.ok t' =>
    match writePhase t' with
    | Except.error e => LayerOutcome.uncaught e
    | Except.ok text => LayerOutcome.ok t' text

/-- A cumulative tree holding `response_flags.bits` with only bit `"3"`
defined (name `ERR`, description `error flag`), plus a documentation
sub-dict. -/
def exampleFlagsTree : Dict :=
  [("response_flags", Value.dict [("bits", Value.dict
      [("3", Value.dict [("name", Value.str "ERR"), ("description", Value.str "error flag")])])]),
   ("documentation", Value.dict [("order", Value.list [Value.str "!response_flags!"])])]

/-- The tree produced by one run of the response-flags renderer on
`exampleFlagsTree`: bits `0`–`2` and `4`–`7` default-filled in place, and
the rendered table written under `!response_flags!`. -/
def exampleFlagsTreeRendered : Dict :=
  [("response_flags", Value.dict [("bits", Value.dict
      [("3", Value.dict [("name", Value.str "ERR"), ("description", Value.str "error flag")]),
       ("0", defaultBit), ("1", defaultBit), ("2", defaultBit),
       ("4", defaultBit), ("5", defaultBit), ("6", defaultBit), ("7", defaultBit)])]),
   ("documentation", Value.dict [("order", Value.list [Value.str "!response_flags!"]),
      ("!response_flags!", Value.str
        "| Bit 7 | Bit 6 | Bit 5 | Bit 4 | Bit 3 | Bit 2 | Bit 1 | Bit 0 |\n|--|--|--|--|--|--|--|--|\n| - | - | - | - | ERR | - | - | - |\n\n* `Bit 3`: error flag\n")])]

/-- A cumulative tree holding a `type_docs` mapping. -/
def exampleTypeTree : Dict :=
  [("type_docs", Value.dict [("b", Value.str "B desc"), ("a", Value.str "A desc")]),
   ("documentation", Value.dict [])]

/-- One type-catalog rendering of `exampleTypeTree`. -/
def exampleTypeTreeRendered : Dict :=
  [("type_docs", Value.dict [("b", Value.str "B desc"), ("a", Value.str "A desc")]),
   ("documentation", Value.dict [("!type_docs!", Value.str
      "| Name | Definition |\n| -- | -- |\n| _a_ | A desc |\n| _b_ | B desc |\n")])]

/-- A heap value: scalars are immediate (Python strings, ints and bools
are immutable), containers are references to heap objects. -/
inductive HVal where
  | hstr : String → HVal
  | hint : Int → HVal
  | hbool : Bool → HVal
  | href : Nat → HVal
  deriving DecidableEq

/-- A mutable heap object: an `OrderedDict` or a list. -/
inductive HObj where
  | hdict : List (String × HVal) → HObj
  | hlist : List HVal → HObj
  deriving DecidableEq

/-- The heap: object at address `a` is the `a`-th cell. -/
abbrev Heap := List HObj

def hlookup : List (String × HVal) → String → Option HVal
  | [], _ => none
  | (k', v') :: rest, k => if k' = k then some v' else hlookup rest k

def hcontains (d : List (String × HVal)) (k : String) : Bool :=
  (hlookup d k).isSome

def hassign : List (String × HVal) → String → HVal → List (String × HVal)
  | [], k, v => [(k, v)]
  | (k', v') :: rest, k, v => if k' = k then (k, v) :: rest else (k', v') :: hassign rest k v

def herase : List (String × HVal) → String → List (String × HVal)
  | [], _ => []
  | (k', v') :: rest, k => if k' = k then rest else (k', v') :: herase rest k

/-- Overwrite the object stored at an existing address. -/
def hset (h : Heap) (a : Nat) (obj : HObj) : Heap :=
  h.set a obj

/-- `isinstance(v, OrderedDict)`: a reference to a dict object. -/
def isDictRef (h : Heap) (v : HVal) : Option (Nat × List (String × HVal)) :=
  match v with
  | HVal.href a =>
    match h.get? a with
    | some (HObj.hdict d) => some (a, d)
    | _ => none
  | _ => none

/-- `isinstance(v, list)`: a reference to a list object. -/
def isListRef (h : Heap) (v : HVal) : Option (Nat × List HVal) :=
  match v with
  | HVal.href a =>
    match h.get? a with
    | some (HObj.hlist l) => some (a, l)
    | _ => none
  | _ => none

/-- Reconstruct the pure value denoted by a heap value (with fuel,
since the heap is not structurally recursive). -/
def readbackEntriesP (rec : HVal → Option Value) :
    List (String × HVal) → Option (List (String × Value))
  | [] => some []
  | (k, v) :: rest =>
    match rec v with
    | none => none
    | some t =>
      match readbackEntriesP rec rest with
      | none => none
      | some ts => some ((k, t) :: ts)

def readbackElemsP (rec : HVal → Option Value) : List HVal → Option (List Value)
  | [] => some []
  | v :: rest =>
    match rec v with
    | none => none
    | some t =>
      match readbackElemsP rec rest with
      | none => none
      | some ts => some (t :: ts)

def readback : Nat → Heap → HVal → Option Value
  | 0, _, _ => none
  | _ + 1, _, HVal.hstr s => some (Value.str s)
  | _ + 1, _, HVal.hint n => some (Value.int n)
  | _ + 1, _, HVal.hbool b => some (Value.bool b)
  | fuel + 1, h, HVal.href a =>
    match h.get? a with
    | some (HObj.hdict entries) =>
      (readbackEntriesP (fun v => readback fuel h v) entries).map Value.dict
    | some (HObj.hlist elems) =>
      (readbackElemsP (fun v => readback fuel h v) elems).map Value.list
    | none => none

/-- The trailing `if "!reset!" in target[k]: del target[k]["!reset!"]`
of `add_entry`: look up the object `target[k]` now refers to and delete
the sentinel key from that object in place. -/
def delResetPost (h2 : Heap) (tAddr : Nat) (k : String) : Option Heap :=
  match h2.get? tAddr with
  | some (HObj.hdict td2) =>
    match hlookup td2 k with
    | some (HVal.href na) =>
      match h2.get? na with
      | some (HObj.hdict nd) =>
        if hcontains nd "!reset!" then some (hset h2 na (HObj.hdict (herase nd "!reset!")))
        else some h2
      | _ => none
    | _ => none
  | _ => none

/-- `add_entry(target, k, v)` with Python's reference semantics: the
target dict is mutated at `tAddr`, and the trailing `delResetPost`
mutates whatever object `target[k]` then refers to — the incoming
layer's own sub-dict in the wholesale-reset branch.  List slicing
(`v[1:]`) and concatenation (`target[k] + v`) allocate fresh list
objects. -/
def heapAddEntryP (recMerge : Heap → List HVal → Option (Heap × Nat))
    (h : Heap) (tAddr : Nat) (k : String) (v : HVal) : Option Heap :=
  match h.get? tAddr with
  | some (HObj.hdict td) =>
    match isDictRef h v with
    | some (_, vd) =>
      if hcontains td k then
        match (if hcontains vd "!reset!" then some (hset h tAddr (HObj.hdict (hassign td k v)))
               else
                 match hlookup td k with
                 | some old =>
                   match recMerge h [old, v] with
                   | some (h1, ma) =>
                     match h1.get? tAddr with
                     | some (HObj.hdict td1) =>
                       some (hset h1 tAddr (HObj.hdict (hassign td1 k (HVal.href ma))))
                     | _ => none
                   | none => none
                 | none => none) with
        | none => none
        | some h2 => delResetPost h2 tAddr k
      else some (hset h tAddr (HObj.hdict (hassign td k v)))
    | none =>
      match isListRef h v with
      | some (_, vl) =>
        if hcontains td k then
          match vl with
          | [] => none
          | v0 :: _ =>
            match v0 with
            | HVal.hstr s =>
              if s = "!reset!" then
                some (hset (h ++ [HObj.hlist vl.tail]) tAddr
                  (HObj.hdict (hassign td k (HVal.href h.length))))
              else
                match hlookup td k with
                | some tv =>
                  match isListRef h tv with
                  | some (_, tl) =>
                    some (hset (h ++ [HObj.hlist (tl ++ vl)]) tAddr
                      (HObj.hdict (hassign td k (HVal.href h.length))))
                  | none => none
                | none => none
            | _ =>
              match hlookup td k with
              | some tv =>
                match isListRef h tv with
                | some (_, tl) =>
                  some (hset (h ++ [HObj.hlist (tl ++ vl)]) tAddr
                    (HObj.hdict (hassign td k (HVal.href h.length))))
                | none => none
              | none => none
        else some (hset h tAddr (HObj.hdict (hassign td k v)))
      | none => some (hset h tAddr (HObj.hdict (hassign td k v)))
  | _ => none

def heapFoldEntriesP (recMerge : Heap → List HVal → Option (Heap × Nat))
    (h : Heap) (tAddr : Nat) : List (String × HVal) → Option Heap
  | [] => some h
  | (k, v) :: rest =>
    match heapAddEntryP recMerge h tAddr k v with
    | none => none
    | some h1 => heapFoldEntriesP recMerge h1 tAddr rest

def heapGoDictsP (recMerge : Heap → List HVal → Option (Heap × Nat))
    (h : Heap) (tAddr : Nat) : List HVal → Option Heap
  | [] => some h
  | d :: rest =>
    match isDictRef h d with
    | some (_, entries) =>
      match heapFoldEntriesP recMerge h tAddr entries with
      | none => none
      | some h1 => heapGoDictsP recMerge h1 tAddr rest
    | none => none

/-- `_merge_ordered_dicts(dicts)` with reference semantics: allocates the
fresh result dict, folds every input dict's entries into it, and returns
the new heap together with the result's address. -/
def heapMerge : Nat → Heap → List HVal → Option (Heap × Nat)
  | 0, _, _ => none
  | fuel + 1, h, ds =>
    match heapGoDictsP (fun h' ds' => heapMerge fuel h' ds') (h ++ [HObj.hdict []]) h.length ds with
    | none => none
    | some h' => some (h', h.length)

/-- A four-cell heap holding the existing layer `{a:{x:1}}` (top dict at
address 1, sub-dict at 0) and the incoming layer
`{a:{"!reset!":true, z:9}}` (top dict at address 3, sub-dict at 2). -/
def exampleMergeHeap : Heap :=
  [HObj.hdict [("x", HVal.hint 1)],
   HObj.hdict [("a", HVal.href 0)],
   HObj.hdict [("!reset!", HVal.hbool true), ("z", HVal.hint 9)],
   HObj.hdict [("a", HVal.href 2)]]

def deepcopyEntriesP (rec : Heap → HVal → Option (Heap × HVal)) :
    Heap → List (String × HVal) → Option (Heap × List (String × HVal))
  | h, [] => some (h, [])
  | h, (k, v) :: rest =>
    match rec h v with
    | none => none
    | some (h1, v') =>
      match deepcopyEntriesP rec h1 rest with
      | none => none
      | some (h2, rest') => some (h2, (k, v') :: rest')

def deepcopyElemsP (rec : Heap → HVal → Option (Heap × HVal)) :
    Heap → List HVal → Option (Heap × List HVal)
  | h, [] => some (h, [])
  | h, v :: rest =>
    match rec h v with
    | none => none
    | some (h1, v') =>
      match deepcopyElemsP rec h1 rest with
      | none => none
      | some (h2, rest') => some (h2, v' :: rest')

/-- A deep copy of a heap value: scalars are immediate, containers are
re-allocated bottom-up in fresh cells. -/
def deepcopyH : Nat → Heap → HVal → Option (Heap × HVal)
  | 0, _, _ => none
  | _ + 1, h, HVal.hstr s => some (h, HVal.hstr s)
  | _ + 1, h, HVal.hint n => some (h, HVal.hint n)
  | _ + 1, h, HVal.hbool b => some (h, HVal.hbool b)
  | fuel + 1, h, HVal.href a =>
    match h.get? a with
    | some (HObj.hdict entries) =>
      match deepcopyEntriesP (fun h' v' => deepcopyH fuel h' v') h entries with
      | none => none
      | some (h1, entries') => some (h1 ++ [HObj.hdict entries'], HVal.href h1.length)
    | some (HObj.hlist elems) =>
      match deepcopyElemsP (fun h' v' => deepcopyH fuel h' v') h elems with
      | none => none
      | some (h1, elems') => some (h1 ++ [HObj.hlist elems'], HVal.href h1.length)
    | none => none

/-- Modelled from the spec: `update_xap_definitions` is imported from
`qmk.xap` and is not under `src/`.  The spec says: "If `existing` is
absent, the result is `incoming` unchanged (a copy, so later mutation of
the result never mutates the original input)"; otherwise the layered
merge of the two trees applies. -/
def updateXapDefinitionsH (fuel : Nat) (h : Heap) :
    Option HVal → HVal → Option (Heap × HVal)
  | none, incoming => deepcopyH fuel h incoming
  | some existing, incoming =>
    match heapMerge fuel h [existing, incoming] with
    | none => none
    | some (h', ra) => some (h', HVal.href ra)

/-- References inside the value stay below `n`. -/
def valBounded (n : Nat) : HVal → Bool
  | HVal.href a => decide (a < n)
  | _ => true

def objBounded (n : Nat) : HObj → Bool
  | HObj.hdict es => es.all (fun p => valBounded n p.2)
  | HObj.hlist vs => vs.all (fun v => valBounded n v)

/-- Every cell's references stay inside the heap. -/
def heapBounded (h : Heap) : Bool :=
  h.all (objBounded h.length)

/-- References inside the value stay inside the region `[lo, hi)`. -/
def valRegion (lo hi : Nat) : HVal → Bool
  | HVal.href a => decide (lo ≤ a) && decide (a < hi)
  | _ => true

def objRegion (lo hi : Nat) : HObj → Bool
  | HObj.hdict es => es.all (fun p => valRegion lo hi p.2)
  | HObj.hlist vs => vs.all (fun v => valRegion lo hi v)

/-- The heap addresses (mutable objects) reachable from a value. -/
inductive Reach (h : Heap) : HVal → Nat → Prop where
  | here (a : Nat) : Reach h (HVal.href a) a
  | viaDict (a : Nat) (entries : List (String × HVal)) (k : String) (v : HVal) (b : Nat) :
      h.get? a = some (HObj.hdict entries) → (k, v) ∈ entries → Reach h v b →
      Reach h (HVal.href a) b
  | viaList (a : Nat) (elems : List HVal) (v : HVal) (b : Nat) :
      h.get? a = some (HObj.hlist elems) → v ∈ elems → Reach h v b →
      Reach h (HVal.href a) b

/-- `es'` is obtained from `es` by deleting zero or more `"!reset!"`
entries, each deleted while actually present (`del d["!reset!"]` is only
ever executed under an `"!reset!" in d` check). -/
inductive StripOf : List (String × HVal) → List (String × HVal) → Prop where
  | refl (es : List (String × HVal)) : StripOf es es
  | strip (es es' : List (String × HVal)) : StripOf es es' →
      hcontains es' "!reset!" = true → StripOf es (herase es' "!reset!")

/-- How a pre-existing heap object can evolve across a merge: lists and
mismatched objects are unchanged, dicts at most lose `"!reset!"` entries. -/
def objEvol : HObj → HObj → Prop
  | HObj.hdict es, HObj.hdict es' => StripOf es es'
  | o, o' => o = o'

/-- Frame property of a heap transition relative to the starting heap:
the heap only grows, and every starting cell other than `ex` (the target
dict being written) survives, changed at most by `"!reset!"` deletion. -/
def frameFrom (h h' : Heap) (ex : Nat) : Prop :=
  h.length ≤ h'.length
  ∧ ∀ b obj, b < h.length → b ≠ ex → h.get? b = some obj →
      ∃ obj', h'.get? b = some obj' ∧ objEvol obj obj'

/-- The recursive-merge callback satisfies the frame property relative
to its own call heap and allocates its result at or above the old heap
length. -/
def HrecFrame (recMerge : Heap → List HVal → Option (Heap × Nat)) : Prop :=
  ∀ h1 ds h2 r, recMerge h1 ds = some (h2, r) →
    frameFrom h1 h2 h1.length ∧ h1.length ≤ r

theorem lookup_assign_self (d : Dict) (k : String) (v : Value) :
    lookup (assign d k v) k = some v := by
  induction d with
  | nil => simp [assign, lookup]
  | cons p rest ih =>
    obtain ⟨k', v'⟩ := p
    by_cases h : k' = k
    · simp [assign, h, lookup]
    · simp [assign, h, lookup, ih]

theorem lookup_assign_ne (d : Dict) (k k' : String) (v : Value) (h : k' ≠ k) :
    lookup (assign d k v) k' = lookup d k' := by
  induction d with
  | nil => simp [assign, lookup, Ne.symm h]
  | cons p rest ih =>
    obtain ⟨k1, v1⟩ := p
    by_cases h1 : k1 = k
    · subst h1
      simp [assign, lookup, Ne.symm h]
    · simp only [assign, if_neg h1, lookup, ih]

theorem assign_of_lookup_eq (d : Dict) (k : String) (v : Value) (h : lookup d k = some v) :
    assign d k v = d := by
  induction d with
  | nil => simp [lookup] at h
  | cons p rest ih =>
    obtain ⟨k1, v1⟩ := p
    by_cases h1 : k1 = k
    · subst h1
      have h' : v1 = v := by simpa [lookup] using h
      simp [assign, h']
    · simp only [lookup, if_neg h1] at h
      simp [assign, h1, ih h]

theorem assign_assign (d : Dict) (k : String) (v w : Value) :
    assign (assign d k v) k w = assign d k w := by
  induction d with
  | nil => simp [assign]
  | cons p rest ih =>
    obtain ⟨k1, v1⟩ := p
    by_cases h1 : k1 = k
    · simp [assign, h1]
    · simp [assign, h1, ih]

theorem assign_append_of_not_contains (d : Dict) (k : String) (v : Value)
    (h : containsKey d k = false) : assign d k v = d ++ [(k, v)] := by
  induction d with
  | nil => simp [assign]
  | cons p rest ih =>
    obtain ⟨k1, v1⟩ := p
    by_cases h1 : k1 = k
    · exfalso
      simp [containsKey, lookup, h1, Option.isSome] at h
    · simp only [containsKey, lookup, if_neg h1] at h
      simp [assign, h1, ih h]

theorem containsKey_iff_mem_keys (d : Dict) (k : String) :
    containsKey d k = true ↔ k ∈ d.map Prod.fst := by
  induction d with
  | nil => simp [containsKey, lookup]
  | cons p rest ih =>
    obtain ⟨k1, v1⟩ := p
    by_cases h1 : k1 = k
    · subst h1
      simp [containsKey, lookup]
    · simp only [containsKey, lookup, if_neg h1] at ih ⊢
      simp only [List.map_cons, List.mem_cons]
      constructor
      · intro hh
        exact Or.inr (ih.mp hh)
      · intro hh
        rcases hh with hh | hh
        · exact absurd hh.symm h1
        · exact ih.mpr hh

theorem containsKey_eq_false_iff (d : Dict) (k : String) :
    containsKey d k = false ↔ ¬ k ∈ d.map Prod.fst := by
  rw [← containsKey_iff_mem_keys]
  cases h : containsKey d k <;> simp

theorem keys_assign_of_contains (d : Dict) (k : String) (v : Value)
    (h : containsKey d k = true) :
    (assign d k v).map Prod.fst = d.map Prod.fst := by
  induction d with
  | nil => simp [containsKey, lookup] at h
  | cons p rest ih =>
    obtain ⟨k1, v1⟩ := p
    by_cases h1 : k1 = k
    · simp [assign, h1]
    · simp only [containsKey, lookup, if_neg h1] at h
      simp [assign, h1, ih h]

theorem keys_assign_of_not_contains (d : Dict) (k : String) (v : Value)
    (h : containsKey d k = false) :
    (assign d k v).map Prod.fst = d.map Prod.fst ++ [k] := by
  rw [assign_append_of_not_contains d k v h]
  simp

theorem nodupKeys_assign (d : Dict) (k : String) (v : Value) (h : NodupKeys d) :
    NodupKeys (assign d k v) := by
  unfold NodupKeys at h ⊢
  cases hc : containsKey d k with
  | true => rw [keys_assign_of_contains d k v hc]; exact h
  | false =>
    rw [keys_assign_of_not_contains d k v hc]
    have hk : ¬ k ∈ d.map Prod.fst := (containsKey_eq_false_iff d k).mp hc
    simp [List.nodup_append, h, hk]

theorem containsKey_assign_self (d : Dict) (k : String) (v : Value) :
    containsKey (assign d k v) k = true := by
  simp [containsKey, lookup_assign_self]

theorem containsKey_assign_ne (d : Dict) (k k' : String) (v : Value) (h : k' ≠ k) :
    containsKey (assign d k v) k' = containsKey d k' := by
  simp [containsKey, lookup_assign_ne d k k' v h]

theorem lookup_append_of_not_contains (t1 t2 : Dict) (k : String)
    (h : containsKey t1 k = false) : lookup (t1 ++ t2) k = lookup t2 k := by
  induction t1 with
  | nil => simp
  | cons p rest ih =>
    obtain ⟨k1, v1⟩ := p
    by_cases h1 : k1 = k
    · simp [containsKey, lookup, h1] at h
    · simp only [containsKey, lookup, if_neg h1] at h
      simp only [List.cons_append, lookup, if_neg h1]
      exact ih h

theorem lookup_append_of_contains (t1 t2 : Dict) (k : String)
    (h : containsKey t1 k = true) : lookup (t1 ++ t2) k = lookup t1 k := by
  induction t1 with
  | nil => simp [containsKey, lookup] at h
  | cons p rest ih =>
    obtain ⟨k1, v1⟩ := p
    by_cases h1 : k1 = k
    · simp [lookup, h1]
    · simp only [containsKey, lookup, if_neg h1] at h
      simp only [List.cons_append, lookup, if_neg h1]
      exact ih h

/-- Every successful `add_entry` rewrites exactly the key it was given:
the result is an `assign` of the target at that key. -/
theorem addEntryP_shape (r : List Value → Except PyErr Dict) (t : Dict) (k : String)
    (v : Value) (t' : Dict) (h : addEntryP r t k v = Except.ok t') :
    ∃ w, t' = assign t k w := by
  unfold addEntryP at h
  repeat' split at h
  all_goals
    first
      | exact Except.noConfusion h
      | exact ⟨_, (Except.ok.inj h).symm⟩

/-- Keys other than the one passed to `add_entry` are untouched. -/
theorem foldEntriesP_lookup_frame (r : List Value → Except PyErr Dict)
    (es : List (String × Value)) :
    ∀ (t t' : Dict) (k : String), foldEntriesP r t es = Except.ok t' →
      (∀ p ∈ es, p.1 ≠ k) → lookup t' k = lookup t k := by
  induction es with
  | nil =>
    intro t t' k h _
    rw [← Except.ok.inj h]
  | cons p rest ih =>
    intro t t' k h hk
    obtain ⟨k1, v1⟩ := p
    unfold foldEntriesP at h
    cases ha : addEntryP r t k1 v1 with
    | error e =>
      rw [ha] at h
      exact Except.noConfusion h
    | ok t1 =>
      rw [ha] at h
      obtain ⟨w, hw⟩ := addEntryP_shape r t k1 v1 t1 ha
      have hne : k1 ≠ k := hk (k1, v1) (List.mem_cons_self _ _)
      have h1 : lookup t1 k = lookup t k := by
        rw [hw]
        exact lookup_assign_ne t k1 k w (Ne.symm hne)
      have h2 := ih t1 t' k h (fun q hq => hk q (List.mem_cons_of_mem _ hq))
      rw [h2, h1]

theorem foldEntriesP_nodup (r : List Value → Except PyErr Dict)
    (es : List (String × Value)) :
    ∀ (t t' : Dict), NodupKeys t → foldEntriesP r t es = Except.ok t' → NodupKeys t' := by
  induction es with
  | nil =>
    intro t t' hnd h
    rw [← Except.ok.inj h]
    exact hnd
  | cons p rest ih =>
    intro t t' hnd h
    obtain ⟨k1, v1⟩ := p
    unfold foldEntriesP at h
    cases ha : addEntryP r t k1 v1 with
    | error e =>
      rw [ha] at h
      exact Except.noConfusion h
    | ok t1 =>
      rw [ha] at h
      obtain ⟨w, hw⟩ := addEntryP_shape r t k1 v1 t1 ha
      exact ih t1 t' (hw ▸ nodupKeys_assign t k1 w hnd) h

theorem addEntryP_not_contains (r : List Value → Except PyErr Dict) (t : Dict)
    (k : String) (v : Value) (h : containsKey t k = false) :
    addEntryP r t k v = Except.ok (assign t k v) := by
  unfold addEntryP
  cases v with
  | dict vd => simp [h]
  | list vl => simp [h]
  | str s => rfl
  | int n => rfl
  | bool b => rfl

/-- Folding entries whose keys are all fresh for the target appends them
verbatim, whatever the values are. -/
theorem foldEntriesP_fresh (r : List Value → Except PyErr Dict)
    (es : List (String × Value)) :
    ∀ (t : Dict), (∀ p ∈ es, containsKey t p.1 = false) → NodupKeys es →
      foldEntriesP r t es = Except.ok (t ++ es) := by
  induction es with
  | nil =>
    intro t _ _
    simp [foldEntriesP]
  | cons p rest ih =>
    intro t hfresh hnd
    obtain ⟨k1, v1⟩ := p
    have hc : containsKey t k1 = false := hfresh (k1, v1) (List.mem_cons_self _ _)
    unfold foldEntriesP
    rw [addEntryP_not_contains r t k1 v1 hc, assign_append_of_not_contains t k1 v1 hc]
    have hnd1 : ¬ k1 ∈ rest.map Prod.fst := by
      unfold NodupKeys at hnd
      simp only [List.map_cons, List.nodup_cons] at hnd
      exact hnd.1
    have hrest : ∀ q ∈ rest, containsKey (t ++ [(k1, v1)]) q.1 = false := by
      intro q hq
      have hqt : containsKey t q.1 = false := hfresh q (List.mem_cons_of_mem _ hq)
      have hqk : ¬ k1 = q.1 := fun he => hnd1 (by rw [he]; exact List.mem_map_of_mem Prod.fst hq)
      simp [containsKey, lookup_append_of_not_contains t [(k1, v1)] q.1 hqt, lookup, hqk]
    have hnd' : NodupKeys rest := by
      unfold NodupKeys at hnd ⊢
      simp only [List.map_cons, List.nodup_cons] at hnd
      exact hnd.2
    show (match Except.ok (t ++ [(k1, v1)]) with
          | Except.error e => Except.error e
          | Except.ok t' => foldEntriesP r t' rest) = Except.ok (t ++ (k1, v1) :: rest)
    show foldEntriesP r (t ++ [(k1, v1)]) rest = _
    rw [ih (t ++ [(k1, v1)]) hrest hnd']
    simp

/-- Inside a successful entry fold over a dict with distinct keys, the
entry `(k, w)` is processed by exactly one `add_entry` call, in a state
whose binding of `k` is unchanged from the start of the fold, and no
later step touches `k` again. -/
theorem foldEntriesP_track (r : List Value → Except PyErr Dict)
    (es : List (String × Value)) :
    ∀ (t t' : Dict) (k : String) (w : Value), NodupKeys es → (k, w) ∈ es →
      foldEntriesP r t es = Except.ok t' →
      ∃ t1 t2, lookup t1 k = lookup t k ∧ addEntryP r t1 k w = Except.ok t2 ∧
        lookup t' k = lookup t2 k := by
  induction es with
  | nil =>
    intro t t' k w _ hmem _
    exact absurd hmem (List.not_mem_nil _)
  | cons p rest ih =>
    intro t t' k w hnd hmem h
    obtain ⟨k1, v1⟩ := p
    unfold foldEntriesP at h
    cases ha : addEntryP r t k1 v1 with
    | error e =>
      rw [ha] at h
      exact Except.noConfusion h
    | ok t1 =>
      rw [ha] at h
      have hnd1 : ¬ k1 ∈ rest.map Prod.fst := by
        unfold NodupKeys at hnd
        simp only [List.map_cons, List.nodup_cons] at hnd
        exact hnd.1
      have hnd' : NodupKeys rest := by
        unfold NodupKeys at hnd
        simp only [List.map_cons, List.nodup_cons] at hnd
        exact hnd.2
      by_cases hk : k1 = k
      · subst hk
        have hw : w = v1 := by
          rcases List.mem_cons.mp hmem with he | he
          · exact ((Prod.mk.injEq _ _ _ _).mp he).2
          · exact absurd (List.mem_map_of_mem Prod.fst he) hnd1
        subst hw
        refine ⟨t, t1, rfl, ha, ?_⟩
        exact foldEntriesP_lookup_frame r rest t1 t' k1 h
          (fun q hq he => hnd1 (he ▸ List.mem_map_of_mem Prod.fst hq))
      · rcases List.mem_cons.mp hmem with he | he
        · exact absurd ((Prod.mk.injEq _ _ _ _).mp he).1.symm hk
        · obtain ⟨w2, hw2⟩ := addEntryP_shape r t k1 v1 t1 ha
          have hl : lookup t1 k = lookup t k := by
            rw [hw2]
            exact lookup_assign_ne t k1 k w2 (fun he => hk he.symm)
          obtain ⟨t1', t2, h1, h2, h3⟩ := ih t1 t' k w hnd' he h
          exact ⟨t1', t2, h1.trans hl, h2, h3⟩

/-- Unfolding `_merge_ordered_dicts` once: the first dict's entries all
have fresh keys for the empty accumulator, so (for a Python dict, whose
keys are distinct) they are copied verbatim before the remaining dicts
are folded in. -/
theorem mergeDicts_cons (fuel : Nat) (a : Dict) (ds : List Value) (ha : NodupKeys a) :
    mergeDicts (fuel + 1) (Value.dict a :: ds) = goDicts fuel a ds := by
  show goDictsP (fun ds' => mergeDicts fuel ds') [] (Value.dict a :: ds) = _
  unfold goDictsP
  rw [show foldEntriesP (fun ds' => mergeDicts fuel ds') [] a
        = Except.ok ([] ++ a) from
      foldEntriesP_fresh _ a [] (fun p _ => rfl) ha]
  rfl

/-- The binary merge `_merge_ordered_dicts([a, b])` is the entry fold of
`b` into `a`. -/
theorem mergeDicts_two (fuel : Nat) (a be : Dict) (ha : NodupKeys a) :
    mergeDicts (fuel + 1) [Value.dict a, Value.dict be] = foldEntries fuel a be := by
  rw [mergeDicts_cons fuel a [Value.dict be] ha]
  show goDictsP _ a [Value.dict be] = foldEntriesP _ a be
  unfold goDictsP
  cases hf : foldEntriesP (fun ds' => mergeDicts fuel ds') a be with
  | error e => rfl
  | ok t' => rfl

theorem lookup_some_mem (d : Dict) (k : String) (v : Value) (h : lookup d k = some v) :
    (k, v) ∈ d := by
  induction d with
  | nil => exact absurd h (by simp [lookup])
  | cons p rest ih =>
    obtain ⟨k1, v1⟩ := p
    by_cases h1 : k1 = k
    · subst h1
      have hv : v1 = v := by simpa [lookup] using h
      subst hv
      exact List.mem_cons_self _ _
    · simp only [lookup, if_neg h1] at h
      exact List.mem_cons_of_mem _ (ih h)

/-- The sequence branch of `add_entry`, for a non-empty incoming list and
an existing list at the same key: reset drops the leading token and
replaces, anything else appends. -/
theorem addEntryP_list (r : List Value → Except PyErr Dict) (t : Dict) (k : String)
    (vl tl : List Value) (h1 : lookup t k = some (Value.list tl)) (hv : vl ≠ []) :
    addEntryP r t k (Value.list vl)
      = if vl.head? = some (Value.str "!reset!")
        then Except.ok (assign t k (Value.list vl.tail))
        else Except.ok (assign t k (Value.list (tl ++ vl))) := by
  have hct : containsKey t k = true := by simp [containsKey, h1]
  cases vl with
  | nil => exact absurd rfl hv
  | cons v0 vrest =>
    unfold addEntryP
    cases v0 with
    | str s =>
      by_cases hs : s = "!reset!"
      · subst hs
        simp [hct]
      · simp [hct, hs, h1, Value.str.injEq]
    | int n => simp [hct, h1]
    | bool b => simp [hct, h1]
    | list l => simp [hct, h1]
    | dict d2 => simp [hct, h1]

/-- The nested-tree branch of `add_entry`, when the existing value at the
key is a dict: a reset sentinel in the incoming dict replaces wholesale
(with the sentinel erased), otherwise the two sub-dicts are merged
recursively and the sentinel is stripped from the merged result. -/
theorem addEntryP_dict (r : List Value → Except PyErr Dict) (t : Dict) (k : String)
    (vd od : Dict) (h1 : lookup t k = some (Value.dict od)) :
    addEntryP r t k (Value.dict vd)
      = if containsKey vd "!reset!"
        then Except.ok (assign t k (Value.dict (eraseKey vd "!reset!")))
        else (r [Value.dict od, Value.dict vd]).map
               (fun m => assign t k (Value.dict (stripReset m))) := by
  have hct : containsKey t k = true := by simp [containsKey, h1]
  unfold addEntryP
  by_cases hcv : containsKey vd "!reset!"
  · simp [hct, hcv, stripReset]
  · simp only [hct, if_true, hcv, Bool.false_eq_true, if_false, h1]
    cases hr : r [Value.dict od, Value.dict vd] with
    | error e => simp [Except.map]
    | ok m => simp [Except.map]

/-- C1: for every merge of two trees that both hold an ordered sequence at
the same key, if the incoming sequence's first element equals the reset
token `"!reset!"`, the result at that key is the incoming sequence with
that first element dropped; otherwise the result is the existing sequence
followed by the incoming sequence.  A reset token at any position after
the first is ordinary appended data: the result holds `vl.tail`
respectively `tl ++ vl` verbatim, later `"!reset!"` elements included. -/
theorem claim_C1 (fuel : Nat) (E I : Dict) (k : String) (tl vl : List Value)
    (hE : NodupKeys E) (hI : NodupKeys I)
    (hkE : lookup E k = some (Value.list tl)) (hkI : lookup I k = some (Value.list vl))
    (hne : vl ≠ []) (R : Dict)
    (hm : mergeDicts (fuel + 1) [Value.dict E, Value.dict I] = Except.ok R) :
    lookup R k = some (Value.list
      (if vl.head? = some (Value.str "!reset!") then vl.tail else tl ++ vl)) := by
  rw [mergeDicts_two fuel E I hE] at hm
  unfold foldEntries at hm
  obtain ⟨t1, t2, h1, h2, h3⟩ :=
    foldEntriesP_track _ I E R k (Value.list vl) hI (lookup_some_mem I k _ hkI) hm
  rw [hkE] at h1
  rw [addEntryP_list _ t1 k vl tl h1 hne] at h2
  by_cases hh : vl.head? = some (Value.str "!reset!")
  · rw [if_pos hh] at h2
    rw [if_pos hh, h3, ← Except.ok.inj h2, lookup_assign_self]
  · rw [if_neg hh] at h2
    rw [if_neg hh, h3, ← Except.ok.inj h2, lookup_assign_self]

/-- Witness for C1: merging `{a: [1,2]}` then `{a: [3,4]}` yields
`{a: [1,2,3,4]}`, and `{a: [1,2]}` then `{a: ["!reset!",3]}` yields
`{a: [3]}`, by `claim_C1` applied at those inputs. -/
theorem claim_C1_witness :
    lookup [("a", Value.list [Value.int 1, Value.int 2, Value.int 3, Value.int 4])] "a"
        = some (Value.list [Value.int 1, Value.int 2, Value.int 3, Value.int 4])
    ∧ lookup [("a", Value.list [Value.int 3])] "a" = some (Value.list [Value.int 3]) := by
  constructor
  · have h := claim_C1 2 [("a", Value.list [Value.int 1, Value.int 2])]
      [("a", Value.list [Value.int 3, Value.int 4])] "a"
      [Value.int 1, Value.int 2] [Value.int 3, Value.int 4]
      (by decide) (by decide) rfl rfl (by simp)
      [("a", Value.list [Value.int 1, Value.int 2, Value.int 3, Value.int 4])] rfl
    simpa using h
  · have h := claim_C1 2 [("a", Value.list [Value.int 1, Value.int 2])]
      [("a", Value.list [Value.str "!reset!", Value.int 3])] "a"
      [Value.int 1, Value.int 2] [Value.str "!reset!", Value.int 3]
      (by decide) (by decide) rfl rfl (by simp)
      [("a", Value.list [Value.int 3])] rfl
    simpa using h

/-- C2: for every merge where both trees hold a nested tree at the same
key: with the sentinel key present in the incoming sub-tree the result is
the incoming sub-tree verbatim minus the sentinel; otherwise the result
is the recursive merge of the two sub-trees with the sentinel stripped,
and keys absent from the incoming sub-tree survive unchanged. -/
theorem claim_C2 (fuel : Nat) (E I : Dict) (k : String) (od vd : Dict)
    (hE : NodupKeys E) (hI : NodupKeys I) (hod : NodupKeys od)
    (hkE : lookup E k = some (Value.dict od)) (hkI : lookup I k = some (Value.dict vd))
    (R : Dict) (hm : mergeDicts (fuel + 1) [Value.dict E, Value.dict I] = Except.ok R) :
    (containsKey vd "!reset!" = true →
       lookup R k = some (Value.dict (eraseKey vd "!reset!")))
    ∧ (containsKey vd "!reset!" = false →
       ∃ m, mergeDicts fuel [Value.dict od, Value.dict vd] = Except.ok m
         ∧ lookup R k = some (Value.dict (stripReset m))
         ∧ ∀ k2, containsKey vd k2 = false → lookup m k2 = lookup od k2) := by
  rw [mergeDicts_two fuel E I hE] at hm
  unfold foldEntries at hm
  obtain ⟨t1, t2, h1, h2, h3⟩ :=
    foldEntriesP_track _ I E R k (Value.dict vd) hI (lookup_some_mem I k _ hkI) hm
  rw [hkE] at h1
  rw [addEntryP_dict _ t1 k vd od h1] at h2
  constructor
  · intro hcv
    rw [if_pos hcv] at h2
    rw [h3, ← Except.ok.inj h2, lookup_assign_self]
  · intro hcv
    rw [if_neg (by simp [hcv])] at h2
    cases hmm : mergeDicts fuel [Value.dict od, Value.dict vd] with
    | error e =>
      rw [hmm] at h2
      exact Except.noConfusion h2
    | ok m =>
      rw [hmm] at h2
      refine ⟨m, rfl, ?_, ?_⟩
      · have h2' : assign t1 k (Value.dict (stripReset m)) = t2 := Except.ok.inj h2
        rw [h3, ← h2', lookup_assign_self]
      · intro k2 hk2
        cases fuel with
        | zero => exact absurd hmm (by simp [mergeDicts])
        | succ f' =>
          rw [mergeDicts_two f' od vd hod] at hmm
          unfold foldEntries at hmm
          apply foldEntriesP_lookup_frame _ vd od m k2 hmm
          intro p hp he
          rw [containsKey_eq_false_iff] at hk2
          exact hk2 (he ▸ List.mem_map_of_mem Prod.fst hp)

/-- Witness for C2: the spec's two nested-tree examples,
`{a:{x:1}}` + `{a:{"!reset!":true, z:9}}` (reset) and
`{a:{x:1,y:2}}` + `{a:{y:3}}` (recursive merge), by `claim_C2` applied at
those inputs. -/
theorem claim_C2_witness :
    (lookup [("a", Value.dict [("z", Value.int 9)])] "a"
        = some (Value.dict [("z", Value.int 9)]))
    ∧ ∃ m, mergeDicts 2 [Value.dict [("x", Value.int 1), ("y", Value.int 2)],
             Value.dict [("y", Value.int 3)]] = Except.ok m
        ∧ lookup [("a", Value.dict [("x", Value.int 1), ("y", Value.int 3)])] "a"
            = some (Value.dict (stripReset m))
        ∧ ∀ k2, containsKey [("y", Value.int 3)] k2 = false →
            lookup m k2 = lookup [("x", Value.int 1), ("y", Value.int 2)] k2 := by
  constructor
  · exact (claim_C2 2 [("a", Value.dict [("x", Value.int 1)])]
      [("a", Value.dict [("!reset!", Value.bool true), ("z", Value.int 9)])] "a"
      [("x", Value.int 1)] [("!reset!", Value.bool true), ("z", Value.int 9)]
      (by decide) (by decide) (by decide) rfl rfl
      [("a", Value.dict [("z", Value.int 9)])] rfl).1 rfl
  · exact (claim_C2 2 [("a", Value.dict [("x", Value.int 1), ("y", Value.int 2)])]
      [("a", Value.dict [("y", Value.int 3)])] "a"
      [("x", Value.int 1), ("y", Value.int 2)] [("y", Value.int 3)]
      (by decide) (by decide) (by decide) rfl rfl
      [("a", Value.dict [("x", Value.int 1), ("y", Value.int 3)])] rfl).2 rfl

/-- **C3.** The spec requires the merge never to index an empty incoming
sequence: an empty sequence at a key already present in the existing tree
must be treated as "no reset", leaving the existing sequence unchanged.
The code has no such guard — `add_entry` evaluates `v[0]` directly — so
merging `{a: [1,2]}` with `{a: []}` raises `IndexError` instead of
returning `{a: [1,2]}`: the code contradicts the spec's stated intent at
this concrete input. -/
theorem claim_C3 :
    mergeDicts 3 [Value.dict [("a", Value.list [Value.int 1, Value.int 2])],
        Value.dict [("a", Value.list [])]]
      = Except.error PyErr.indexError
    ∧ mergeDicts 3 [Value.dict [("a", Value.list [Value.int 1, Value.int 2])],
        Value.dict [("a", Value.list [])]]
      ≠ Except.ok [("a", Value.list [Value.int 1, Value.int 2])] := by
  exact ⟨rfl, by decide⟩

/-- C10: when a key is absent from the existing tree, the incoming value
is stored verbatim — in particular a nested tree containing the
`"!reset!"` sentinel key keeps the sentinel; it is only ever stripped
when the key is already present in the existing tree. -/
theorem claim_C10 (fuel : Nat) (E I : Dict) (k : String) (v : Value)
    (hE : NodupKeys E) (hI : NodupKeys I)
    (hkE : lookup E k = none) (hkI : lookup I k = some v) (R : Dict)
    (hm : mergeDicts (fuel + 1) [Value.dict E, Value.dict I] = Except.ok R) :
    lookup R k = some v := by
  rw [mergeDicts_two fuel E I hE] at hm
  unfold foldEntries at hm
  obtain ⟨t1, t2, h1, h2, h3⟩ :=
    foldEntriesP_track _ I E R k v hI (lookup_some_mem I k v hkI) hm
  rw [hkE] at h1
  have hct : containsKey t1 k = false := by simp [containsKey, h1]
  rw [addEntryP_not_contains _ t1 k v hct] at h2
  rw [h3, ← Except.ok.inj h2, lookup_assign_self]

theorem goDicts_eq_specFold (fuel : Nat) (rest : List Value) :
    ∀ acc : Dict, NodupKeys acc →
      goDicts fuel acc rest = specBinaryFoldGo (fuel + 1) acc rest := by
  induction rest with
  | nil =>
    intro acc _
    rfl
  | cons l rest' ih =>
    intro acc hacc
    cases l with
    | dict e =>
      show goDictsP (fun ds' => mergeDicts fuel ds') acc (Value.dict e :: rest') = _
      unfold goDictsP specBinaryFoldGo
      rw [mergeDicts_two fuel acc e hacc]
      unfold foldEntries
      cases hf : foldEntriesP (fun ds' => mergeDicts fuel ds') acc e with
      | error e' => rfl
      | ok t' =>
        have hnd : NodupKeys t' := foldEntriesP_nodup _ e acc t' hacc hf
        exact ih t' hnd
    | str s =>
      show Except.error PyErr.attributeError = _
      unfold specBinaryFoldGo
      rw [mergeDicts_cons fuel acc [Value.str s] hacc]
      rfl
    | int n =>
      show Except.error PyErr.attributeError = _
      unfold specBinaryFoldGo
      rw [mergeDicts_cons fuel acc [Value.int n] hacc]
      rfl
    | bool b =>
      show Except.error PyErr.attributeError = _
      unfold specBinaryFoldGo
      rw [mergeDicts_cons fuel acc [Value.bool b] hacc]
      rfl
    | list l2 =>
      show Except.error PyErr.attributeError = _
      unfold specBinaryFoldGo
      rw [mergeDicts_cons fuel acc [Value.list l2] hacc]
      rfl

/-- C6: the n-ary merge of a whole layer list in one
`_merge_ordered_dicts` call equals the spec's left-to-right fold of the
binary merge, `merge(merge(merge(null, L1), L2), L3)...`, at the same
fuel. -/
theorem claim_C6 (fuel : Nat) (d1 : Dict) (rest : List Value) (h1 : NodupKeys d1) :
    mergeDicts (fuel + 1) (Value.dict d1 :: rest)
      = specBinaryFold (fuel + 1) (Value.dict d1 :: rest) := by
  rw [mergeDicts_cons fuel d1 rest h1]
  show _ = specBinaryFoldGo (fuel + 1) d1 rest
  exact goDicts_eq_specFold fuel rest d1 h1

/-- Witness for C6 at a three-layer input exercising append, nested merge
and nested reset. -/
theorem claim_C6_witness :
    mergeDicts 5 [Value.dict [("a", Value.list [Value.int 1]), ("b", Value.dict [("x", Value.int 1)])],
        Value.dict [("a", Value.list [Value.int 2]), ("b", Value.dict [("y", Value.int 2)])],
        Value.dict [("b", Value.dict [("!reset!", Value.bool true), ("z", Value.int 3)])]]
      = specBinaryFold 5 [Value.dict [("a", Value.list [Value.int 1]), ("b", Value.dict [("x", Value.int 1)])],
        Value.dict [("a", Value.list [Value.int 2]), ("b", Value.dict [("y", Value.int 2)])],
        Value.dict [("b", Value.dict [("!reset!", Value.bool true), ("z", Value.int 3)])]] := by
  exact claim_C6 4 [("a", Value.list [Value.int 1]), ("b", Value.dict [("x", Value.int 1)])]
    [Value.dict [("a", Value.list [Value.int 2]), ("b", Value.dict [("y", Value.int 2)])],
     Value.dict [("b", Value.dict [("!reset!", Value.bool true), ("z", Value.int 3)])]]
    (by decide)

/-- Witness for C10: merging `{b:1}` with `{a:{"!reset!":true, z:9}}`
stores the incoming sub-tree with the sentinel key still present. -/
theorem claim_C10_witness :
    lookup [("b", Value.int 1),
        ("a", Value.dict [("!reset!", Value.bool true), ("z", Value.int 9)])] "a"
      = some (Value.dict [("!reset!", Value.bool true), ("z", Value.int 9)]) := by
  exact claim_C10 2 [("b", Value.int 1)]
    [("a", Value.dict [("!reset!", Value.bool true), ("z", Value.int 9)])] "a"
    (Value.dict [("!reset!", Value.bool true), ("z", Value.int 9)])
    (by decide) (by decide) rfl rfl _ rfl

/-- Writing the same rendered text twice into the documentation sub-dict
is idempotent on the tree. -/
theorem setDocKey_idem (t t' : Dict) (key : String) (text : String)
    (h : setDocKey t key text = Except.ok t') :
    setDocKey t' key text = Except.ok t' := by
  unfold setDocKey at h ⊢
  cases hd : lookup t "documentation" with
  | none =>
    rw [hd] at h
    exact Except.noConfusion h
  | some dv =>
    rw [hd] at h
    cases dv with
    | dict docd =>
      have ht' : t' = assign t "documentation" (Value.dict (assign docd key (Value.str text))) :=
        (Except.ok.inj h).symm
      subst ht'
      rw [lookup_assign_self]
      show Except.ok (assign (assign t "documentation" (Value.dict (assign docd key (Value.str text))))
          "documentation" (Value.dict (assign (assign docd key (Value.str text)) key (Value.str text))))
        = Except.ok (assign t "documentation" (Value.dict (assign docd key (Value.str text))))
      rw [assign_assign, assign_assign]
    | str s =>
      exact Except.noConfusion h
    | int n =>
      exact Except.noConfusion h
    | bool b =>
      exact Except.noConfusion h
    | list l =>
      exact Except.noConfusion h

/-- The name-table renderers read one source key and write one
documentation key; re-running on the result reads the same source and
rewrites the same text. -/
theorem updateNameTableSection_idem (srcKey docKey : String)
    (hsrc : srcKey ≠ "documentation") (t t' : Dict)
    (h : updateNameTableSection srcKey docKey t = Except.ok t') :
    updateNameTableSection srcKey docKey t' = Except.ok t' := by
  unfold updateNameTableSection at h ⊢
  cases hs : lookup t srcKey with
  | none =>
    rw [hs] at h
    exact Except.noConfusion h
  | some sv =>
    rw [hs] at h
    cases sv with
    | dict defs =>
      have hsrc' : lookup t' srcKey = some (Value.dict defs) := by
        unfold setDocKey at h
        cases hd : lookup t "documentation" with
        | none =>
          rw [hd] at h
          exact Except.noConfusion h
        | some dv =>
          rw [hd] at h
          cases dv with
          | dict docd =>
            have ht' : t' = assign t "documentation"
                (Value.dict (assign docd docKey (Value.str (renderNameTable defs)))) :=
              (Except.ok.inj h).symm
            subst ht'
            rw [lookup_assign_ne t "documentation" srcKey _ hsrc, hs]
          | str s => exact Except.noConfusion h
          | int n => exact Except.noConfusion h
          | bool b => exact Except.noConfusion h
          | list l => exact Except.noConfusion h
      rw [hsrc']
      exact setDocKey_idem t t' docKey (renderNameTable defs) h
    | str s => exact Except.noConfusion h
    | int n => exact Except.noConfusion h
    | bool b => exact Except.noConfusion h
    | list l => exact Except.noConfusion h

theorem containsKey_fillAux_mono (ns : List Nat) :
    ∀ (d : Dict) (k : String), containsKey d k = true →
      containsKey (fillAux d ns) k = true := by
  induction ns with
  | nil =>
    intro d k h
    exact h
  | cons n rest ih =>
    intro d k h
    unfold fillAux
    by_cases hc : containsKey d (toString n) = true
    · rw [if_pos hc]
      exact ih d k h
    · rw [if_neg hc]
      apply ih
      by_cases he : k = toString n
      · subst he
        exact containsKey_assign_self d (toString n) defaultBit
      · rw [containsKey_assign_ne d (toString n) k defaultBit he]
        exact h

theorem containsKey_fillAux_self (ns : List Nat) :
    ∀ (d : Dict) (n : Nat), n ∈ ns → containsKey (fillAux d ns) (toString n) = true := by
  induction ns with
  | nil =>
    intro d n h
    exact absurd h (List.not_mem_nil n)
  | cons m rest ih =>
    intro d n h
    rcases List.mem_cons.mp h with he | he
    · subst he
      unfold fillAux
      by_cases hc : containsKey d (toString n) = true
      · rw [if_pos hc]
        exact containsKey_fillAux_mono rest d _ hc
      · rw [if_neg hc]
        exact containsKey_fillAux_mono rest _ _ (containsKey_assign_self d (toString n) defaultBit)
    · unfold fillAux
      by_cases hc : containsKey d (toString m) = true
      · rw [if_pos hc]
        exact ih d n he
      · rw [if_neg hc]
        exact ih _ n he

theorem fillAux_of_all_contains (ns : List Nat) :
    ∀ d : Dict, (∀ n ∈ ns, containsKey d (toString n) = true) → fillAux d ns = d := by
  induction ns with
  | nil =>
    intro d _
    rfl
  | cons m rest ih =>
    intro d h
    unfold fillAux
    rw [if_pos (h m (List.mem_cons_self _ _))]
    exact ih d (fun n hn => h n (List.mem_cons_of_mem _ hn))

/-- The default fill of `_update_response_flags` is idempotent: after one
pass all bit indices `"0"`..`"7"` are present, so a second pass changes
nothing. -/
theorem fillBits_idem (d : Dict) : fillBits (fillBits d) = fillBits d := by
  unfold fillBits
  exact fillAux_of_all_contains (List.range 8) (fillAux d (List.range 8))
    (fun n hn => containsKey_fillAux_self (List.range 8) d n hn)

theorem renderFlagsInto_shape (t1 filled t' : Dict)
    (h : renderFlagsInto t1 filled = Except.ok t') :
    ∃ text, setDocKey t1 "!response_flags!" text = Except.ok t'
      ∧ renderFlagsInto t' filled = setDocKey t' "!response_flags!" text := by
  unfold renderFlagsInto at h ⊢
  cases hn : flagsNamesRow filled with
  | error e =>
    rw [hn] at h
    exact Except.noConfusion h
  | ok namesRow =>
    rw [hn] at h
    cases hbl : flagsBullets filled with
    | error e =>
      rw [hbl] at h
      exact Except.noConfusion h
    | ok bullets =>
      rw [hbl] at h
      exact ⟨_, h, rfl⟩

/-- Re-running the response-flags renderer on its own output changes
nothing: the fill is idempotent and the rendered text is rewritten
verbatim. -/
theorem updateResponseFlags_idem (t t' : Dict)
    (h : updateResponseFlags t = Except.ok t') :
    updateResponseFlags t' = Except.ok t' := by
  unfold updateResponseFlags at h ⊢
  cases hrf : lookup t "response_flags" with
  | none =>
    rw [hrf] at h
    exact Except.noConfusion h
  | some rv =>
    cases rv with
    | str s =>
      rw [hrf] at h
      exact Except.noConfusion h
    | int n =>
      rw [hrf] at h
      exact Except.noConfusion h
    | bool b =>
      rw [hrf] at h
      exact Except.noConfusion h
    | list l =>
      rw [hrf] at h
      exact Except.noConfusion h
    | dict rf =>
      simp only [hrf] at h
      cases hb : lookup rf "bits" with
      | none =>
        rw [hb] at h
        exact Except.noConfusion h
      | some bv =>
        cases bv with
        | str s =>
          rw [hb] at h
          exact Except.noConfusion h
        | int n =>
          rw [hb] at h
          exact Except.noConfusion h
        | bool b =>
          rw [hb] at h
          exact Except.noConfusion h
        | list l =>
          rw [hb] at h
          exact Except.noConfusion h
        | dict bits =>
          simp only [hb] at h
          obtain ⟨text, hset, hsecond⟩ := renderFlagsInto_shape _ _ t' h
          have hdoc : ∃ docd, lookup (assign t "response_flags"
              (Value.dict (assign rf "bits" (Value.dict (fillBits bits)))))
              "documentation" = some (Value.dict docd) := by
            unfold setDocKey at hset
            cases hd : lookup (assign t "response_flags"
                (Value.dict (assign rf "bits" (Value.dict (fillBits bits)))))
                "documentation" with
            | none =>
              rw [hd] at hset
              exact Except.noConfusion hset
            | some dv =>
              rw [hd] at hset
              cases dv with
              | dict docd => exact ⟨docd, rfl⟩
              | str s => exact Except.noConfusion hset
              | int n => exact Except.noConfusion hset
              | bool b => exact Except.noConfusion hset
              | list l => exact Except.noConfusion hset
          obtain ⟨docd, hdoc⟩ := hdoc
          have ht' : t' = assign (assign t "response_flags"
              (Value.dict (assign rf "bits" (Value.dict (fillBits bits)))))
              "documentation" (Value.dict (assign docd "!response_flags!" (Value.str text))) := by
            unfold setDocKey at hset
            rw [hdoc] at hset
            exact (Except.ok.inj hset).symm
          have hrf' : lookup t' "response_flags"
              = some (Value.dict (assign rf "bits" (Value.dict (fillBits bits)))) := by
            rw [ht', lookup_assign_ne _ _ _ _ (by decide), lookup_assign_self]
          have hb' : lookup (assign rf "bits" (Value.dict (fillBits bits))) "bits"
              = some (Value.dict (fillBits bits)) := lookup_assign_self rf "bits" _
          simp only [hrf', hb']
          show renderFlagsInto
              (assign t' "response_flags" (Value.dict (assign (assign rf "bits"
                (Value.dict (fillBits bits))) "bits" (Value.dict (fillBits (fillBits bits))))))
              (fillBits (fillBits bits)) = Except.ok t'
          rw [fillBits_idem, assign_assign, assign_of_lookup_eq t' "response_flags" _ hrf']
          rw [hsecond]
          exact setDocKey_idem _ t' "!response_flags!" text hset

/-- C7: each of the three section renderers (type catalog, term
glossary, response flags) is idempotent on the cumulative tree: running
it on its own successful output returns that output unchanged, including
the reserved documentation key and — for the response-flags renderer —
the default-filled bits mapping. -/
theorem claim_C7 (t t' : Dict) :
    (updateTypeDocs t = Except.ok t' → updateTypeDocs t' = Except.ok t')
    ∧ (updateTermDefinitions t = Except.ok t' → updateTermDefinitions t' = Except.ok t')
    ∧ (updateResponseFlags t = Except.ok t' → updateResponseFlags t' = Except.ok t') :=
  ⟨fun h => updateNameTableSection_idem "type_docs" "!type_docs!" (by decide) t t' h,
   fun h => updateNameTableSection_idem "term_definitions" "!term_definitions!" (by decide) t t' h,
   fun h => updateResponseFlags_idem t t' h⟩

/-- Witness for C7: the response-flags renderer and the type-catalog
renderer each map their example output to itself. -/
theorem claim_C7_witness :
    (updateResponseFlags exampleFlagsTree = Except.ok exampleFlagsTreeRendered
      ∧ updateResponseFlags exampleFlagsTreeRendered = Except.ok exampleFlagsTreeRendered)
    ∧ (updateTypeDocs exampleTypeTree = Except.ok exampleTypeTreeRendered
      ∧ updateTypeDocs exampleTypeTreeRendered = Except.ok exampleTypeTreeRendered) := by
  refine ⟨⟨rfl, ?_⟩, ⟨rfl, ?_⟩⟩
  · exact (claim_C7 exampleFlagsTree exampleFlagsTreeRendered).2.2 rfl
  · exact (claim_C7 exampleTypeTree exampleTypeTreeRendered).1 rfl

/-- Counterexample for C9: for a layer whose `order` holds an entry
`"x"` with no rendered text, the run aborts with an uncaught `KeyError`
— not through the `except:` handler — so the cumulative tree is never
dumped before termination (the writing loop sits outside the `try`). -/
theorem claim_C9_counterexample :
    processLayer [("documentation", Value.dict [("order", Value.list [Value.str "x"])])]
      = LayerOutcome.uncaught PyErr.keyError
    ∧ ∀ d, processLayer [("documentation", Value.dict [("order", Value.list [Value.str "x"])])]
        ≠ LayerOutcome.dumpExit d := by
  refine ⟨rfl, fun d h => ?_⟩
  have h2 : LayerOutcome.uncaught PyErr.keyError = LayerOutcome.dumpExit d :=
    (rfl : processLayer [("documentation", Value.dict [("order", Value.list [Value.str "x"])])]
      = LayerOutcome.uncaught PyErr.keyError).symm.trans h
  exact LayerOutcome.noConfusion h2

theorem writeSections_missing (docd : Dict) (s : String) (hc : containsKey docd s = false) :
    ∀ entries : List Value, Value.str s ∈ entries →
      ∃ err, writeSections docd entries = Except.error err := by
  intro entries
  induction entries with
  | nil =>
    intro h
    exact absurd h (List.not_mem_nil _)
  | cons e rest ih =>
    intro hmem
    unfold writeSections
    cases hst : sectionText docd e with
    | error err =>
      exact ⟨err, rfl⟩
    | ok stext =>
      have hmem' : Value.str s ∈ rest := by
        rcases List.mem_cons.mp hmem with he | he
        · exfalso
          rw [← he] at hst
          unfold sectionText at hst
          have hnone : lookup docd s = none := by
            cases hl : lookup docd s with
            | none => rfl
            | some v =>
              exfalso
              simp [containsKey, hl] at hc
          simp only [hnone] at hst
          exact Except.noConfusion hst
        · exact he
      obtain ⟨err, herr⟩ := ih hmem'
      rw [herr]
      exact ⟨err, rfl⟩

/-- C9 as amended: for every layer whose documentation `order` contains
an entry with no corresponding rendered text, document assembly aborts
the whole run fatally with a non-zero outcome — but via an UNCAUGHT
`KeyError` from the writing loop, which sits outside the `try/except`:
the cumulative tree is NOT dumped for diagnosis (the dump-and-`exit(1)`
path fires only for renderer failures). -/
theorem claim_C9_amended (t t' docd : Dict) (ov : Value) (entries : List Value) (s : String)
    (hrender : renderPhase t = Except.ok t')
    (hdoc : lookup t' "documentation" = some (Value.dict docd))
    (horder : lookup docd "order" = some ov)
    (hiter : pyIter ov = Except.ok entries)
    (hmem : Value.str s ∈ entries)
    (hmiss : containsKey docd s = false) :
    ∃ err, processLayer t = LayerOutcome.uncaught err := by
  obtain ⟨err, herr⟩ := writeSections_missing docd s hmiss entries hmem
  refine ⟨err, ?_⟩
  unfold processLayer
  rw [hrender]
  show (match writePhase t' with
        | Except.error e => LayerOutcome.uncaught e
        | Except.ok text => LayerOutcome.ok t' text) = _
  unfold writePhase
  simp only [hdoc, horder, hiter, herr]

/-- Witness for the amended C9: a layer whose `order` lists `"a"` (which
renders) and then the missing `"x"`. -/
theorem claim_C9_witness :
    ∃ err, processLayer [("documentation", Value.dict
        [("order", Value.list [Value.str "a", Value.str "x"]), ("a", Value.str "hi")])]
      = LayerOutcome.uncaught err := by
  exact claim_C9_amended
    [("documentation", Value.dict
        [("order", Value.list [Value.str "a", Value.str "x"]), ("a", Value.str "hi")])]
    [("documentation", Value.dict
        [("order", Value.list [Value.str "a", Value.str "x"]), ("a", Value.str "hi")])]
    [("order", Value.list [Value.str "a", Value.str "x"]), ("a", Value.str "hi")]
    (Value.list [Value.str "a", Value.str "x"])
    [Value.str "a", Value.str "x"] "x"
    rfl rfl rfl rfl
    (List.mem_cons_of_mem _ (List.mem_cons_self _ _)) rfl

/-- Counterexample for C5: the merge modifies the incoming layer.
Merging `{a:{x:1}}` with `{a:{"!reset!":true, z:9}}` deletes the
sentinel from the incoming layer's own sub-dict (heap cell 2) in place:
before the merge the incoming layer reads back as
`{a:{"!reset!":true, z:9}}`, afterwards as `{a:{z:9}}`, and cell 2
itself has changed. -/
theorem claim_C5_counterexample :
    readback 10 exampleMergeHeap (HVal.href 3)
      = some (Value.dict [("a", Value.dict [("!reset!", Value.bool true), ("z", Value.int 9)])])
    ∧ (heapMerge 20 exampleMergeHeap [HVal.href 1, HVal.href 3]).map
        (fun p => readback 10 p.1 (HVal.href 3))
      = some (some (Value.dict [("a", Value.dict [("z", Value.int 9)])]))
    ∧ exampleMergeHeap.get? 2 = some (HObj.hdict [("!reset!", HVal.hbool true), ("z", HVal.hint 9)])
    ∧ (heapMerge 20 exampleMergeHeap [HVal.href 1, HVal.href 3]).map (fun p => p.1.get? 2)
      = some (some (HObj.hdict [("z", HVal.hint 9)]))
    ∧ HObj.hdict [("z", HVal.hint 9)]
      ≠ HObj.hdict [("!reset!", HVal.hbool true), ("z", HVal.hint 9)] := by
  refine ⟨rfl, rfl, rfl, rfl, by decide⟩

theorem valBounded_mono (n m : Nat) (v : HVal) (h : valBounded n v = true) (hnm : n ≤ m) :
    valBounded m v = true := by
  cases v with
  | href a =>
    simp [valBounded] at h ⊢
    omega
  | hstr s => rfl
  | hint i => rfl
  | hbool b => rfl

theorem valRegion_widen (lo hi lo' hi' : Nat) (v : HVal) (h : valRegion lo hi v = true)
    (hlo : lo' ≤ lo) (hhi : hi ≤ hi') : valRegion lo' hi' v = true := by
  cases v with
  | href a =>
    simp [valRegion] at h ⊢
    omega
  | hstr s => rfl
  | hint i => rfl
  | hbool b => rfl

theorem valRegion_bounded (lo hi : Nat) (v : HVal) (h : valRegion lo hi v = true) :
    valBounded hi v = true := by
  cases v with
  | href a =>
    simp [valRegion] at h
    simp [valBounded]
    omega
  | hstr s => rfl
  | hint i => rfl
  | hbool b => rfl

theorem heapBounded_get (h : Heap) (a : Nat) (obj : HObj) (hb : heapBounded h = true)
    (hg : h.get? a = some obj) : objBounded h.length obj = true := by
  unfold heapBounded at hb
  rw [List.all_eq_true] at hb
  exact hb obj (List.get?_mem hg)

theorem objBounded_dict_val (n : Nat) (es : List (String × HVal)) (k : String) (v : HVal)
    (h : objBounded n (HObj.hdict es) = true) (hmem : (k, v) ∈ es) :
    valBounded n v = true := by
  unfold objBounded at h
  rw [List.all_eq_true] at h
  exact h (k, v) hmem

theorem objBounded_list_val (n : Nat) (vs : List HVal) (v : HVal)
    (h : objBounded n (HObj.hlist vs) = true) (hmem : v ∈ vs) :
    valBounded n v = true := by
  unfold objBounded at h
  rw [List.all_eq_true] at h
  exact h v hmem

theorem length_le_of_append (h ext : Heap) : h.length ≤ (h ++ ext).length := by
  simp

theorem readbackEntriesP_congr (r1 r2 : HVal → Option Value) :
    ∀ es : List (String × HVal), (∀ k v, (k, v) ∈ es → r1 v = r2 v) →
      readbackEntriesP r1 es = readbackEntriesP r2 es := by
  intro es
  induction es with
  | nil =>
    intro _
    rfl
  | cons p rest ih =>
    intro h
    obtain ⟨k, v⟩ := p
    unfold readbackEntriesP
    rw [h k v (List.mem_cons_self _ _), ih (fun k2 v2 hm => h k2 v2 (List.mem_cons_of_mem _ hm))]

theorem readbackElemsP_congr (r1 r2 : HVal → Option Value) :
    ∀ vs : List HVal, (∀ v ∈ vs, r1 v = r2 v) →
      readbackElemsP r1 vs = readbackElemsP r2 vs := by
  intro vs
  induction vs with
  | nil =>
    intro _
    rfl
  | cons v rest ih =>
    intro h
    unfold readbackElemsP
    rw [h v (List.mem_cons_self _ _), ih (fun v2 hm => h v2 (List.mem_cons_of_mem _ hm))]

/-- Reading back a value of a well-formed heap is unaffected by cells
appended beyond it. -/
theorem readback_ext : ∀ (g : Nat) (h ext : Heap) (v : HVal), heapBounded h = true →
    valBounded h.length v = true → readback g (h ++ ext) v = readback g h v := by
  intro g
  induction g with
  | zero =>
    intro h ext v _ _
    rfl
  | succ g ih =>
    intro h ext v hb hv
    cases v with
    | hstr s => rfl
    | hint n => rfl
    | hbool b => rfl
    | href a =>
      have ha : a < h.length := by simpa [valBounded] using hv
      unfold readback
      rw [List.get?_append ha]
      cases hg : h.get? a with
      | none => rfl
      | some obj =>
        have hob := heapBounded_get h a obj hb hg
        cases obj with
        | hdict entries =>
          show Option.map Value.dict (readbackEntriesP (fun v => readback g (h ++ ext) v) entries)
            = Option.map Value.dict (readbackEntriesP (fun v => readback g h v) entries)
          rw [readbackEntriesP_congr (fun v => readback g (h ++ ext) v)
            (fun v => readback g h v) entries
            (fun k2 v2 hm => ih h ext v2 hb (objBounded_dict_val h.length entries k2 v2 hob hm))]
        | hlist elems =>
          show Option.map Value.list (readbackElemsP (fun v => readback g (h ++ ext) v) elems)
            = Option.map Value.list (readbackElemsP (fun v => readback g h v) elems)
          rw [readbackElemsP_congr (fun v => readback g (h ++ ext) v)
            (fun v => readback g h v) elems
            (fun v2 hm => ih h ext v2 hb (objBounded_list_val h.length elems v2 hob hm))]

theorem objRegion_widen (lo hi lo' hi' : Nat) (obj : HObj) (h : objRegion lo hi obj = true)
    (hlo : lo' ≤ lo) (hhi : hi ≤ hi') : objRegion lo' hi' obj = true := by
  cases obj with
  | hdict es =>
    unfold objRegion at h ⊢
    rw [List.all_eq_true] at h ⊢
    exact fun p hp => valRegion_widen lo hi lo' hi' p.2 (h p hp) hlo hhi
  | hlist vs =>
    unfold objRegion at h ⊢
    rw [List.all_eq_true] at h ⊢
    exact fun v hv => valRegion_widen lo hi lo' hi' v (h v hv) hlo hhi

theorem deepcopyEntriesP_good (rec : Heap → HVal → Option (Heap × HVal))
    (hrec : ∀ (h : Heap) (v : HVal) (h' : Heap) (v' : HVal),
      heapBounded h = true → valBounded h.length v = true → rec h v = some (h', v') →
      (∃ ext, h' = h ++ ext) ∧ heapBounded h' = true
      ∧ valRegion h.length h'.length v' = true
      ∧ (∀ j obj, h.length ≤ j → h'.get? j = some obj → objRegion h.length h'.length obj = true)
      ∧ (∀ g, readback g h' v' = readback g h v)) :
    ∀ (es : List (String × HVal)) (h h1 : Heap) (es' : List (String × HVal)),
      heapBounded h = true → (∀ k v, (k, v) ∈ es → valBounded h.length v = true) →
      deepcopyEntriesP rec h es = some (h1, es') →
      (∃ ext, h1 = h ++ ext) ∧ heapBounded h1 = true
      ∧ (∀ k v, (k, v) ∈ es' → valRegion h.length h1.length v = true)
      ∧ (∀ j obj, h.length ≤ j → h1.get? j = some obj → objRegion h.length h1.length obj = true)
      ∧ (∀ g, readbackEntriesP (fun v => readback g h1 v) es'
            = readbackEntriesP (fun v => readback g h v) es) := by
  intro es
  induction es with
  | nil =>
    intro h h1 es' hb _ hcp
    unfold deepcopyEntriesP at hcp
    have hpair := Option.some.inj hcp
    have hh1 : h1 = h := (congrArg Prod.fst hpair).symm
    have hes : es' = [] := (congrArg Prod.snd hpair).symm
    subst hh1
    subst hes
    refine ⟨⟨[], (List.append_nil h1).symm⟩, hb, ?_, ?_, fun g => rfl⟩
    · intro k v hm
      exact absurd hm (List.not_mem_nil _)
    · intro j obj hj hg
      have hlt := (List.get?_eq_some.mp hg).1
      omega
  | cons p rest ih =>
    intro h h1 es' hb hvals hcp
    obtain ⟨k, v⟩ := p
    unfold deepcopyEntriesP at hcp
    cases hr1 : rec h v with
    | none =>
      rw [hr1] at hcp
      exact Option.noConfusion hcp
    | some pr1 =>
      obtain ⟨h2, v2'⟩ := pr1
      simp only [hr1] at hcp
      cases hr2 : deepcopyEntriesP rec h2 rest with
      | none =>
        simp only [hr2] at hcp
        exact Option.noConfusion hcp
      | some pr2 =>
        obtain ⟨h3, rest'⟩ := pr2
        simp only [hr2] at hcp
        have hpair := Option.some.inj hcp
        have hh1 : h1 = h3 := (congrArg Prod.fst hpair).symm
        have hes : es' = (k, v2') :: rest' := (congrArg Prod.snd hpair).symm
        subst hh1
        subst hes
        obtain ⟨⟨ext1, hext1⟩, hb2, hreg2, hclosed2, hrb2⟩ :=
          hrec h v h2 v2' hb (hvals k v (List.mem_cons_self _ _)) hr1
        have hlen12 : h.length ≤ h2.length := by
          rw [hext1]
          simp
        obtain ⟨⟨ext2, hext2⟩, hb3, hreg3, hclosed3, hrb3⟩ :=
          ih h2 h1 rest' hb2
            (fun k2 v2 hm =>
              valBounded_mono _ _ _ (hvals k2 v2 (List.mem_cons_of_mem _ hm)) hlen12)
            hr2
        have hlen23 : h2.length ≤ h1.length := by
          rw [hext2]
          simp
        refine ⟨⟨ext1 ++ ext2, by rw [hext2, hext1, List.append_assoc]⟩, hb3, ?_, ?_, ?_⟩
        · intro k2 v2 hm
          rcases List.mem_cons.mp hm with he | he
          · have hv2 : v2 = v2' := ((Prod.mk.injEq _ _ _ _).mp he).2
            subst hv2
            exact valRegion_widen _ _ _ _ _ hreg2 (Nat.le_refl _) hlen23
          · exact valRegion_widen _ _ _ _ _ (hreg3 k2 v2 he) hlen12 (Nat.le_refl _)
        · intro j obj hj hg
          by_cases hj2 : j < h2.length
          · have hg2 : h2.get? j = some obj := by
              rw [hext2, List.get?_append hj2] at hg
              exact hg
            exact objRegion_widen _ _ _ _ _ (hclosed2 j obj hj hg2) (Nat.le_refl _) hlen23
          · exact objRegion_widen _ _ _ _ _
              (hclosed3 j obj (Nat.le_of_not_lt hj2) hg) hlen12 (Nat.le_refl _)
        · intro g
          unfold readbackEntriesP
          have hv2 : readback g h1 v2' = readback g h v := by
            rw [hext2, readback_ext g h2 ext2 v2' hb2 (valRegion_bounded _ _ _ hreg2)]
            exact hrb2 g
          have hrest : readbackEntriesP (fun v => readback g h2 v) rest
              = readbackEntriesP (fun v => readback g h v) rest :=
            readbackEntriesP_congr _ _ rest (fun k2 v2 hm => by
              rw [hext1]
              exact readback_ext g h ext1 v2 hb (hvals k2 v2 (List.mem_cons_of_mem _ hm)))
          rw [hv2, hrb3 g, hrest]

theorem deepcopyElemsP_good (rec : Heap → HVal → Option (Heap × HVal))
    (hrec : ∀ (h : Heap) (v : HVal) (h' : Heap) (v' : HVal),
      heapBounded h = true → valBounded h.length v = true → rec h v = some (h', v') →
      (∃ ext, h' = h ++ ext) ∧ heapBounded h' = true
      ∧ valRegion h.length h'.length v' = true
      ∧ (∀ j obj, h.length ≤ j → h'.get? j = some obj → objRegion h.length h'.length obj = true)
      ∧ (∀ g, readback g h' v' = readback g h v)) :
    ∀ (vs : List HVal) (h h1 : Heap) (vs' : List HVal),
      heapBounded h = true → (∀ v ∈ vs, valBounded h.length v = true) →
      deepcopyElemsP rec h vs = some (h1, vs') →
      (∃ ext, h1 = h ++ ext) ∧ heapBounded h1 = true
      ∧ (∀ v ∈ vs', valRegion h.length h1.length v = true)
      ∧ (∀ j obj, h.length ≤ j → h1.get? j = some obj → objRegion h.length h1.length obj = true)
      ∧ (∀ g, readbackElemsP (fun v => readback g h1 v) vs'
            = readbackElemsP (fun v => readback g h v) vs) := by
  intro vs
  induction vs with
  | nil =>
    intro h h1 vs' hb _ hcp
    unfold deepcopyElemsP at hcp
    have hpair := Option.some.inj hcp
    have hh1 : h1 = h := (congrArg Prod.fst hpair).symm
    have hvs : vs' = [] := (congrArg Prod.snd hpair).symm
    subst hh1
    subst hvs
    refine ⟨⟨[], (List.append_nil h1).symm⟩, hb, ?_, ?_, fun g => rfl⟩
    · intro v hm
      exact absurd hm (List.not_mem_nil _)
    · intro j obj hj hg
      have hlt := (List.get?_eq_some.mp hg).1
      omega
  | cons v rest ih =>
    intro h h1 vs' hb hvals hcp
    unfold deepcopyElemsP at hcp
    cases hr1 : rec h v with
    | none =>
      rw [hr1] at hcp
      exact Option.noConfusion hcp
    | some pr1 =>
      obtain ⟨h2, v2'⟩ := pr1
      simp only [hr1] at hcp
      cases hr2 : deepcopyElemsP rec h2 rest with
      | none =>
        simp only [hr2] at hcp
        exact Option.noConfusion hcp
      | some pr2 =>
        obtain ⟨h3, rest'⟩ := pr2
        simp only [hr2] at hcp
        have hpair := Option.some.inj hcp
        have hh1 : h1 = h3 := (congrArg Prod.fst hpair).symm
        have hvs : vs' = v2' :: rest' := (congrArg Prod.snd hpair).symm
        subst hh1
        subst hvs
        obtain ⟨⟨ext1, hext1⟩, hb2, hreg2, hclosed2, hrb2⟩ :=
          hrec h v h2 v2' hb (hvals v (List.mem_cons_self _ _)) hr1
        have hlen12 : h.length ≤ h2.length := by
          rw [hext1]
          simp
        obtain ⟨⟨ext2, hext2⟩, hb3, hreg3, hclosed3, hrb3⟩ :=
          ih h2 h1 rest' hb2
            (fun v2 hm => valBounded_mono _ _ _ (hvals v2 (List.mem_cons_of_mem _ hm)) hlen12)
            hr2
        have hlen23 : h2.length ≤ h1.length := by
          rw [hext2]
          simp
        refine ⟨⟨ext1 ++ ext2, by rw [hext2, hext1, List.append_assoc]⟩, hb3, ?_, ?_, ?_⟩
        · intro v2 hm
          rcases List.mem_cons.mp hm with he | he
          · subst he
            exact valRegion_widen _ _ _ _ _ hreg2 (Nat.le_refl _) hlen23
          · exact valRegion_widen _ _ _ _ _ (hreg3 v2 he) hlen12 (Nat.le_refl _)
        · intro j obj hj hg
          by_cases hj2 : j < h2.length
          · have hg2 : h2.get? j = some obj := by
              rw [hext2, List.get?_append hj2] at hg
              exact hg
            exact objRegion_widen _ _ _ _ _ (hclosed2 j obj hj hg2) (Nat.le_refl _) hlen23
          · exact objRegion_widen _ _ _ _ _
              (hclosed3 j obj (Nat.le_of_not_lt hj2) hg) hlen12 (Nat.le_refl _)
        · intro g
          unfold readbackElemsP
          have hv2 : readback g h1 v2' = readback g h v := by
            rw [hext2, readback_ext g h2 ext2 v2' hb2 (valRegion_bounded _ _ _ hreg2)]
            exact hrb2 g
          have hrest : readbackElemsP (fun w => readback g h2 w) rest
              = readbackElemsP (fun w => readback g h w) rest :=
            readbackElemsP_congr _ _ rest (fun v2 hm => by
              rw [hext1]
              exact readback_ext g h ext1 v2 hb (hvals v2 (List.mem_cons_of_mem _ hm)))
          rw [hv2, hrb3 g, hrest]

theorem objBounded_mono (n m : Nat) (obj : HObj) (h : objBounded n obj = true) (hnm : n ≤ m) :
    objBounded m obj = true := by
  cases obj with
  | hdict es =>
    unfold objBounded at h ⊢
    rw [List.all_eq_true] at h ⊢
    exact fun p hp => valBounded_mono n m p.2 (h p hp) hnm
  | hlist vs =>
    unfold objBounded at h ⊢
    rw [List.all_eq_true] at h ⊢
    exact fun v hv => valBounded_mono n m v (h v hv) hnm

theorem heapBounded_snoc (h1 : Heap) (obj : HObj)
    (hb1 : heapBounded h1 = true) (hob : objBounded h1.length obj = true) :
    heapBounded (h1 ++ [obj]) = true := by
  unfold heapBounded at hb1 ⊢
  rw [List.all_eq_true] at hb1 ⊢
  intro o hmem
  rcases List.mem_append.mp hmem with hm | hm
  · exact objBounded_mono _ _ o (hb1 o hm) (by simp)
  · have ho : o = obj := by simpa using hm
    subst ho
    exact objBounded_mono _ _ o hob (by simp)

theorem get?_snoc_self (h1 : Heap) (obj : HObj) :
    (h1 ++ [obj]).get? h1.length = some obj := by
  rw [List.get?_append_right (Nat.le_refl _)]
  simp

theorem deepcopyH_good : ∀ (fuel : Nat) (h : Heap) (v : HVal) (h' : Heap) (v' : HVal),
    heapBounded h = true → valBounded h.length v = true →
    deepcopyH fuel h v = some (h', v') →
    (∃ ext, h' = h ++ ext) ∧ heapBounded h' = true
    ∧ valRegion h.length h'.length v' = true
    ∧ (∀ j obj, h.length ≤ j → h'.get? j = some obj → objRegion h.length h'.length obj = true)
    ∧ (∀ g, readback g h' v' = readback g h v) := by
  intro fuel
  induction fuel with
  | zero =>
    intro h v h' v' _ _ hcp
    exact Option.noConfusion hcp
  | succ fuel ih =>
    intro h v h' v' hb hv hcp
    cases v with
    | hstr s =>
      have hpair := Option.some.inj hcp
      have hh : h' = h := (congrArg Prod.fst hpair).symm
      have hvv : v' = HVal.hstr s := (congrArg Prod.snd hpair).symm
      subst hh
      subst hvv
      refine ⟨⟨[], (List.append_nil _).symm⟩, hb, rfl, ?_, fun g => rfl⟩
      intro j obj hj hg
      have hlt := (List.get?_eq_some.mp hg).1
      omega
    | hint n =>
      have hpair := Option.some.inj hcp
      have hh : h' = h := (congrArg Prod.fst hpair).symm
      have hvv : v' = HVal.hint n := (congrArg Prod.snd hpair).symm
      subst hh
      subst hvv
      refine ⟨⟨[], (List.append_nil _).symm⟩, hb, rfl, ?_, fun g => rfl⟩
      intro j obj hj hg
      have hlt := (List.get?_eq_some.mp hg).1
      omega
    | hbool b =>
      have hpair := Option.some.inj hcp
      have hh : h' = h := (congrArg Prod.fst hpair).symm
      have hvv : v' = HVal.hbool b := (congrArg Prod.snd hpair).symm
      subst hh
      subst hvv
      refine ⟨⟨[], (List.append_nil _).symm⟩, hb, rfl, ?_, fun g => rfl⟩
      intro j obj hj hg
      have hlt := (List.get?_eq_some.mp hg).1
      omega
    | href a =>
      have ha : a < h.length := by simpa [valBounded] using hv
      unfold deepcopyH at hcp
      cases hg : h.get? a with
      | none =>
        rw [hg] at hcp
        exact Option.noConfusion hcp
      | some obj =>
        have hob := heapBounded_get h a obj hb hg
        cases obj with
        | hdict entries =>
          simp only [hg] at hcp
          cases hce : deepcopyEntriesP (fun h2 v2 => deepcopyH fuel h2 v2) h entries with
          | none =>
            rw [hce] at hcp
            exact Option.noConfusion hcp
          | some pr =>
            obtain ⟨h1, entries'⟩ := pr
            simp only [hce] at hcp
            have hpair := Option.some.inj hcp
            have hh : h' = h1 ++ [HObj.hdict entries'] := (congrArg Prod.fst hpair).symm
            have hvv : v' = HVal.href h1.length := (congrArg Prod.snd hpair).symm
            subst hh
            subst hvv
            have hvals : ∀ k w, (k, w) ∈ entries → valBounded h.length w = true :=
              fun k w hm => objBounded_dict_val _ entries k w hob hm
            obtain ⟨⟨ext1, hext1⟩, hb1, hreg1, hclosed1, hrb1⟩ :=
              deepcopyEntriesP_good _ ih entries h h1 entries' hb hvals hce
            have hlen1 : h.length ≤ h1.length := by
              rw [hext1]
              simp
            have hlensnoc : (h1 ++ [HObj.hdict entries']).length = h1.length + 1 := by simp
            have hobj' : objRegion h.length (h1.length + 1) (HObj.hdict entries') = true := by
              unfold objRegion
              rw [List.all_eq_true]
              intro p hp
              exact valRegion_widen _ _ _ _ _ (hreg1 p.1 p.2 hp) (Nat.le_refl _) (by omega)
            refine ⟨⟨ext1 ++ [HObj.hdict entries'], by rw [hext1, List.append_assoc]⟩, ?_, ?_, ?_, ?_⟩
            · exact heapBounded_snoc h1 _ hb1 (by
                unfold objBounded
                rw [List.all_eq_true]
                intro p hp
                exact valRegion_bounded _ _ _ (hreg1 p.1 p.2 hp))
            · rw [hlensnoc]
              simp only [valRegion]
              rw [Bool.and_eq_true]
              constructor
              · simpa using hlen1
              · simp
            · intro j obj2 hj hg2
              rw [hlensnoc]
              by_cases hj1 : j < h1.length
              · rw [List.get?_append hj1] at hg2
                exact objRegion_widen _ _ _ _ _ (hclosed1 j obj2 hj hg2) (Nat.le_refl _) (by omega)
              · have hj1' : h1.length ≤ j := Nat.le_of_not_lt hj1
                rw [List.get?_append_right hj1'] at hg2
                by_cases hjeq : j = h1.length
                · have h0 : j - h1.length = 0 := by omega
                  rw [h0] at hg2
                  have hoeq : HObj.hdict entries' = obj2 := by simpa using hg2
                  subst hoeq
                  exact hobj'
                · have h1' : 1 ≤ j - h1.length := by omega
                  rw [show j - h1.length = (j - h1.length - 1) + 1 by omega] at hg2
                  simp at hg2
            · intro g
              cases g with
              | zero => rfl
              | succ g =>
                show (match (h1 ++ [HObj.hdict entries']).get? h1.length with
                  | some (HObj.hdict es2) =>
                    (readbackEntriesP (fun w => readback g (h1 ++ [HObj.hdict entries']) w) es2).map Value.dict
                  | some (HObj.hlist vs2) =>
                    (readbackElemsP (fun w => readback g (h1 ++ [HObj.hdict entries']) w) vs2).map Value.list
                  | none => none) = readback (g + 1) h (HVal.href a)
                rw [get?_snoc_self]
                show (readbackEntriesP (fun w => readback g (h1 ++ [HObj.hdict entries']) w) entries').map Value.dict
                  = readback (g + 1) h (HVal.href a)
                have hstep1 : readbackEntriesP (fun w => readback g (h1 ++ [HObj.hdict entries']) w) entries'
                    = readbackEntriesP (fun w => readback g h1 w) entries' :=
                  readbackEntriesP_congr _ _ entries' (fun k2 w hm =>
                    readback_ext g h1 [HObj.hdict entries'] w hb1
                      (valRegion_bounded _ _ _ (hreg1 k2 w hm)))
                rw [hstep1, hrb1 g]
                show (readbackEntriesP (fun w => readback g h w) entries).map Value.dict
                  = match h.get? a with
                    | some (HObj.hdict es2) =>
                      (readbackEntriesP (fun w => readback g h w) es2).map Value.dict
                    | some (HObj.hlist vs2) =>
                      (readbackElemsP (fun w => readback g h w) vs2).map Value.list
                    | none => none
                rw [hg]
        | hlist elems =>
          simp only [hg] at hcp
          cases hce : deepcopyElemsP (fun h2 v2 => deepcopyH fuel h2 v2) h elems with
          | none =>
            rw [hce] at hcp
            exact Option.noConfusion hcp
          | some pr =>
            obtain ⟨h1, elems'⟩ := pr
            simp only [hce] at hcp
            have hpair := Option.some.inj hcp
            have hh : h' = h1 ++ [HObj.hlist elems'] := (congrArg Prod.fst hpair).symm
            have hvv : v' = HVal.href h1.length := (congrArg Prod.snd hpair).symm
            subst hh
            subst hvv
            have hvals : ∀ w ∈ elems, valBounded h.length w = true :=
              fun w hm => objBounded_list_val _ elems w hob hm
            obtain ⟨⟨ext1, hext1⟩, hb1, hreg1, hclosed1, hrb1⟩ :=
              deepcopyElemsP_good _ ih elems h h1 elems' hb hvals hce
            have hlen1 : h.length ≤ h1.length := by
              rw [hext1]
              simp
            have hlensnoc : (h1 ++ [HObj.hlist elems']).length = h1.length + 1 := by simp
            have hobj' : objRegion h.length (h1.length + 1) (HObj.hlist elems') = true := by
              unfold objRegion
              rw [List.all_eq_true]
              intro w hw
              exact valRegion_widen _ _ _ _ _ (hreg1 w hw) (Nat.le_refl _) (by omega)
            refine ⟨⟨ext1 ++ [HObj.hlist elems'], by rw [hext1, List.append_assoc]⟩, ?_, ?_, ?_, ?_⟩
            · exact heapBounded_snoc h1 _ hb1 (by
                unfold objBounded
                rw [List.all_eq_true]
                intro w hw
                exact valRegion_bounded _ _ _ (hreg1 w hw))
            · rw [hlensnoc]
              simp only [valRegion]
              rw [Bool.and_eq_true]
              constructor
              · simpa using hlen1
              · simp
            · intro j obj2 hj hg2
              rw [hlensnoc]
              by_cases hj1 : j < h1.length
              · rw [List.get?_append hj1] at hg2
                exact objRegion_widen _ _ _ _ _ (hclosed1 j obj2 hj hg2) (Nat.le_refl _) (by omega)
              · have hj1' : h1.length ≤ j := Nat.le_of_not_lt hj1
                rw [List.get?_append_right hj1'] at hg2
                by_cases hjeq : j = h1.length
                · have h0 : j - h1.length = 0 := by omega
                  rw [h0] at hg2
                  have hoeq : HObj.hlist elems' = obj2 := by simpa using hg2
                  subst hoeq
                  exact hobj'
                · have h1' : 1 ≤ j - h1.length := by omega
                  rw [show j - h1.length = (j - h1.length - 1) + 1 by omega] at hg2
                  simp at hg2
            · intro g
              cases g with
              | zero => rfl
              | succ g =>
                show (match (h1 ++ [HObj.hlist elems']).get? h1.length with
                  | some (HObj.hdict es2) =>
                    (readbackEntriesP (fun w => readback g (h1 ++ [HObj.hlist elems']) w) es2).map Value.dict
                  | some (HObj.hlist vs2) =>
                    (readbackElemsP (fun w => readback g (h1 ++ [HObj.hlist elems']) w) vs2).map Value.list
                  | none => none) = readback (g + 1) h (HVal.href a)
                rw [get?_snoc_self]
                show (readbackElemsP (fun w => readback g (h1 ++ [HObj.hlist elems']) w) elems').map Value.list
                  = readback (g + 1) h (HVal.href a)
                have hstep1 : readbackElemsP (fun w => readback g (h1 ++ [HObj.hlist elems']) w) elems'
                    = readbackElemsP (fun w => readback g h1 w) elems' :=
                  readbackElemsP_congr _ _ elems' (fun w hm =>
                    readback_ext g h1 [HObj.hlist elems'] w hb1
                      (valRegion_bounded _ _ _ (hreg1 w hm)))
                rw [hstep1, hrb1 g]
                show (readbackElemsP (fun w => readback g h w) elems).map Value.list
                  = match h.get? a with
                    | some (HObj.hdict es2) =>
                      (readbackEntriesP (fun w => readback g h w) es2).map Value.dict
                    | some (HObj.hlist vs2) =>
                      (readbackElemsP (fun w => readback g h w) vs2).map Value.list
                    | none => none
                rw [hg]

theorem reach_in_region (lo : Nat) (h' : Heap)
    (hcl : ∀ j obj, lo ≤ j → h'.get? j = some obj → objRegion lo h'.length obj = true) :
    ∀ (v : HVal) (a : Nat), Reach h' v a → valRegion lo h'.length v = true → lo ≤ a := by
  intro v a hr
  induction hr with
  | here b =>
    intro hv
    simp [valRegion] at hv
    omega
  | viaDict b entries k w c hg hm _ ih =>
    intro hv
    simp [valRegion] at hv
    have hobr := hcl b _ (by omega) hg
    unfold objRegion at hobr
    rw [List.all_eq_true] at hobr
    exact ih (hobr (k, w) hm)
  | viaList b elems w c hg hm _ ih =>
    intro hv
    simp [valRegion] at hv
    have hobr := hcl b _ (by omega) hg
    unfold objRegion at hobr
    rw [List.all_eq_true] at hobr
    exact ih (hobr w hm)

theorem reach_old (h ext : Heap) (hb : heapBounded h = true) :
    ∀ (v : HVal) (a : Nat), Reach (h ++ ext) v a → valBounded h.length v = true →
    a < h.length := by
  intro v a hr
  induction hr with
  | here b =>
    intro hv
    simpa [valBounded] using hv
  | viaDict b entries k w c hg hm _ ih =>
    intro hv
    have hblt : b < h.length := by simpa [valBounded] using hv
    rw [List.get?_append hblt] at hg
    have hob := heapBounded_get h b _ hb hg
    exact ih (objBounded_dict_val _ entries k w hob hm)
  | viaList b elems w c hg hm _ ih =>
    intro hv
    have hblt : b < h.length := by simpa [valBounded] using hv
    rw [List.get?_append hblt] at hg
    have hob := heapBounded_get h b _ hb hg
    exact ih (objBounded_list_val _ elems w hob hm)

/-- **C4.** Merging with an absent existing tree (`existing = null`) returns a value
equal to the incoming one — its readback is unchanged — and independent from it:
every mutable heap cell the result reaches is a fresh address (at or above the old
heap's length), while the incoming value reaches only old addresses, so the two
share no mutable state. Modelled from the spec for the `existing = None` branch of
`update_xap_definitions` (imported from `qmk.xap`, not under `src/`): the spec says
the result is "a copy, so later mutation of the result never mutates the original
input", which we model as a recursive deep copy into fresh cells. -/
theorem claim_C4 (fuel f : Nat) (h h' : Heap) (v v' : HVal) (t : Value)
    (hb : heapBounded h = true) (hv : valBounded h.length v = true)
    (hcp : updateXapDefinitionsH fuel h Option.none v = some (h', v'))
    (hrb : readback f h v = some t) :
    readback f h' v' = some t
    ∧ (∀ a, Reach h' v' a → h.length ≤ a)
    ∧ (∀ a, Reach h' v a → a < h.length) := by
  have hcp' : deepcopyH fuel h v = some (h', v') := hcp
  obtain ⟨⟨ext, hext⟩, hb', hreg, hcl, hrd⟩ := deepcopyH_good fuel h v h' v' hb hv hcp'
  refine ⟨by rw [hrd f]; exact hrb, ?_, ?_⟩
  · intro a hr
    exact reach_in_region h.length h' hcl v' a hr hreg
  · intro a hr
    rw [hext] at hr
    exact reach_old h ext hb v a hr hv

/-- Witness for C4 at the one-cell heap `[{a: 1}]`: the copy lands at fresh
address 1, reads back to the same tree, and reaches only fresh cells while the
original reaches only old ones. -/
theorem claim_C4_witness :
    readback 3 [HObj.hdict [("a", HVal.hint 1)], HObj.hdict [("a", HVal.hint 1)]]
        (HVal.href 1) = some (Value.dict [("a", Value.int 1)])
    ∧ (∀ a, Reach [HObj.hdict [("a", HVal.hint 1)], HObj.hdict [("a", HVal.hint 1)]]
        (HVal.href 1) a → 1 ≤ a)
    ∧ (∀ a, Reach [HObj.hdict [("a", HVal.hint 1)], HObj.hdict [("a", HVal.hint 1)]]
        (HVal.href 0) a → a < 1) :=
  claim_C4 3 3 [HObj.hdict [("a", HVal.hint 1)]]
    [HObj.hdict [("a", HVal.hint 1)], HObj.hdict [("a", HVal.hint 1)]]
    (HVal.href 0) (HVal.href 1) (Value.dict [("a", Value.int 1)])
    (by decide) (by decide) rfl rfl

theorem stripOf_trans (e1 e2 e3 : List (String × HVal))
    (h12 : StripOf e1 e2) (h23 : StripOf e2 e3) : StripOf e1 e3 := by
  induction h23 with
  | refl => exact h12
  | strip es' hs hc ih => exact StripOf.strip _ _ ih hc

theorem objEvol_refl (o : HObj) : objEvol o o := by
  cases o with
  | hdict es => exact StripOf.refl es
  | hlist vs => rfl

theorem objEvol_trans (o1 o2 o3 : HObj)
    (h12 : objEvol o1 o2) (h23 : objEvol o2 o3) : objEvol o1 o3 := by
  cases o1 with
  | hdict e1 =>
    cases o2 with
    | hdict e2 =>
      cases o3 with
      | hdict e3 => exact stripOf_trans e1 e2 e3 h12 h23
      | hlist v3 => exact HObj.noConfusion h23
    | hlist v2 => exact HObj.noConfusion h12
  | hlist v1 =>
    cases o2 with
    | hdict e2 => exact HObj.noConfusion h12
    | hlist v2 =>
      have hq : HObj.hlist v1 = HObj.hlist v2 := h12
      rw [hq]
      exact h23

theorem frameFrom_refl (h : Heap) (ex : Nat) : frameFrom h h ex :=
  ⟨Nat.le_refl _, fun _ obj _ _ hb => ⟨obj, hb, objEvol_refl obj⟩⟩

theorem frameFrom_trans (h1 h2 h3 : Heap) (ex : Nat)
    (f12 : frameFrom h1 h2 ex) (f23 : frameFrom h2 h3 ex) : frameFrom h1 h3 ex := by
  obtain ⟨l12, p12⟩ := f12
  obtain ⟨l23, p23⟩ := f23
  refine ⟨Nat.le_trans l12 l23, ?_⟩
  intro b obj hb hex hget
  obtain ⟨o2, hg2, he2⟩ := p12 b obj hb hex hget
  obtain ⟨o3, hg3, he3⟩ := p23 b o2 (Nat.lt_of_lt_of_le hb l12) hex hg2
  exact ⟨o3, hg3, objEvol_trans _ _ _ he2 he3⟩

theorem hget_hset_ne (h : Heap) (a b : Nat) (obj : HObj) (hne : a ≠ b) :
    (hset h a obj).get? b = h.get? b := by
  unfold hset
  exact List.get?_set_ne _ _ hne

theorem hget_hset_self (h : Heap) (a : Nat) (obj : HObj) (ha : a < h.length) :
    (hset h a obj).get? a = some obj := by
  unfold hset
  exact List.get?_set_eq_of_lt _ ha

theorem frameFrom_set (h : Heap) (ex : Nat) (obj : HObj) :
    frameFrom h (hset h ex obj) ex := by
  refine ⟨by simp [hset], ?_⟩
  intro b o hb hex hget
  exact ⟨o, by rw [hget_hset_ne h ex b obj (Ne.symm hex)]; exact hget, objEvol_refl o⟩

theorem frameFrom_append (h ext : Heap) (ex : Nat) : frameFrom h (h ++ ext) ex := by
  refine ⟨by simp, ?_⟩
  intro b o hb _ hget
  exact ⟨o, by rw [List.get?_append hb]; exact hget, objEvol_refl o⟩

theorem frameFrom_strip (h : Heap) (a ex : Nat) (es : List (String × HVal))
    (hg : h.get? a = some (HObj.hdict es)) (hc : hcontains es "!reset!" = true) :
    frameFrom h (hset h a (HObj.hdict (herase es "!reset!"))) ex := by
  refine ⟨by simp [hset], ?_⟩
  intro b o hb hex hget
  by_cases hba : b = a
  · have hget' : h.get? b = some (HObj.hdict es) := by rw [hba]; exact hg
    have ho : o = HObj.hdict es := by
      rw [hget] at hget'
      exact Option.some.inj hget'
    refine ⟨HObj.hdict (herase es "!reset!"), ?_, ?_⟩
    · rw [hba]
      exact hget_hset_self h a _ ((List.get?_eq_some.mp hg).1)
    · rw [ho]
      exact StripOf.strip _ _ (StripOf.refl es) hc
  · exact ⟨o, by rw [hget_hset_ne h a b _ (fun hq => hba hq.symm)]; exact hget,
      objEvol_refl o⟩

theorem frameFrom_of_full (h h' : Heap) (ex : Nat)
    (hf : frameFrom h h' h.length) : frameFrom h h' ex := by
  obtain ⟨hl, hp⟩ := hf
  exact ⟨hl, fun b obj hb _ hg => hp b obj hb (Nat.ne_of_lt hb) hg⟩

theorem delResetPost_frame (h2 : Heap) (tAddr : Nat) (k : String) (h' : Heap) (ex : Nat)
    (hpost : delResetPost h2 tAddr k = some h') : frameFrom h2 h' ex := by
  unfold delResetPost at hpost
  split at hpost
  · split at hpost
    · split at hpost
      · split at hpost
        · rename_i td2 na heqt heql nd heqn hc
          rw [← Option.some.inj hpost]
          exact frameFrom_strip h2 na ex nd heqn hc
        · rw [← Option.some.inj hpost]
          exact frameFrom_refl h2 ex
      · exact Option.noConfusion hpost
    · exact Option.noConfusion hpost
  · exact Option.noConfusion hpost

theorem heapAddEntryP_frame (recMerge : Heap → List HVal → Option (Heap × Nat))
    (Hrec : HrecFrame recMerge) (h : Heap) (tAddr : Nat) (k : String) (v : HVal)
    (h' : Heap) (hA : heapAddEntryP recMerge h tAddr k v = some h') :
    frameFrom h h' tAddr := by
  unfold heapAddEntryP at hA
  split at hA
  · rename_i td heqt
    split at hA
    · rename_i pr a vd heqv
      split at hA
      · rename_i hck
        split at hA
        · exact Option.noConfusion hA
        · rename_i h2 hif
          split at hif
          · rename_i hcv
            have hh2 : h2 = hset h tAddr (HObj.hdict (hassign td k v)) :=
              (Option.some.inj hif).symm
            rw [hh2] at hA
            exact frameFrom_trans _ _ _ _ (frameFrom_set h tAddr _)
              (delResetPost_frame _ tAddr k h' tAddr hA)
          · rename_i hcv
            split at hif
            · rename_i old heql
              split at hif
              · rename_i p1 h1 ma heqm
                split at hif
                · rename_i td1 heqt1
                  have hh2 : h2 = hset h1 tAddr (HObj.hdict (hassign td1 k (HVal.href ma))) :=
                    (Option.some.inj hif).symm
                  rw [hh2] at hA
                  obtain ⟨hfr, hma⟩ := Hrec h [old, v] h1 ma heqm
                  exact frameFrom_trans _ _ _ _
                    (frameFrom_trans _ _ _ _ (frameFrom_of_full h h1 tAddr hfr)
                      (frameFrom_set h1 tAddr _))
                    (delResetPost_frame _ tAddr k h' tAddr hA)
                · exact Option.noConfusion hif
              · exact Option.noConfusion hif
            · exact Option.noConfusion hif
      · rename_i hck
        rw [← Option.some.inj hA]
        exact frameFrom_set h tAddr _
    · split at hA
      · split at hA
        · split at hA
          · exact Option.noConfusion hA
          · split at hA
            · split at hA
              · rw [← Option.some.inj hA]
                exact frameFrom_trans _ _ _ _ (frameFrom_append h _ tAddr)
                  (frameFrom_set _ tAddr _)
              · split at hA
                · split at hA
                  · rw [← Option.some.inj hA]
                    exact frameFrom_trans _ _ _ _ (frameFrom_append h _ tAddr)
                      (frameFrom_set _ tAddr _)
                  · exact Option.noConfusion hA
                · exact Option.noConfusion hA
            · split at hA
              · split at hA
                · rw [← Option.some.inj hA]
                  exact frameFrom_trans _ _ _ _ (frameFrom_append h _ tAddr)
                    (frameFrom_set _ tAddr _)
                · exact Option.noConfusion hA
              · exact Option.noConfusion hA
        · rw [← Option.some.inj hA]
          exact frameFrom_set h tAddr _
      · rw [← Option.some.inj hA]
        exact frameFrom_set h tAddr _
  · exact Option.noConfusion hA

theorem heapFoldEntriesP_frame (recMerge : Heap → List HVal → Option (Heap × Nat))
    (Hrec : HrecFrame recMerge) :
    ∀ (es : List (String × HVal)) (h : Heap) (tAddr : Nat) (h' : Heap),
      heapFoldEntriesP recMerge h tAddr es = some h' → frameFrom h h' tAddr := by
  intro es
  induction es with
  | nil =>
    intro h tAddr h' hF
    rw [← Option.some.inj hF]
    exact frameFrom_refl h tAddr
  | cons p rest ih =>
    intro h tAddr h' hF
    obtain ⟨k, v⟩ := p
    unfold heapFoldEntriesP at hF
    cases hE : heapAddEntryP recMerge h tAddr k v with
    | none =>
      rw [hE] at hF
      exact Option.noConfusion hF
    | some h1 =>
      rw [hE] at hF
      exact frameFrom_trans _ _ _ _ (heapAddEntryP_frame recMerge Hrec h tAddr k v h1 hE)
        (ih h1 tAddr h' hF)

theorem heapGoDictsP_frame (recMerge : Heap → List HVal → Option (Heap × Nat))
    (Hrec : HrecFrame recMerge) :
    ∀ (ds : List HVal) (h : Heap) (tAddr : Nat) (h' : Heap),
      heapGoDictsP recMerge h tAddr ds = some h' → frameFrom h h' tAddr := by
  intro ds
  induction ds with
  | nil =>
    intro h tAddr h' hG
    rw [← Option.some.inj hG]
    exact frameFrom_refl h tAddr
  | cons d rest ih =>
    intro h tAddr h' hG
    unfold heapGoDictsP at hG
    cases hd : isDictRef h d with
    | none =>
      rw [hd] at hG
      exact Option.noConfusion hG
    | some pr =>
      obtain ⟨a, entries⟩ := pr
      simp only [hd] at hG
      cases hF : heapFoldEntriesP recMerge h tAddr entries with
      | none =>
        rw [hF] at hG
        exact Option.noConfusion hG
      | some h1 =>
        rw [hF] at hG
        exact frameFrom_trans _ _ _ _
          (heapFoldEntriesP_frame recMerge Hrec entries h tAddr h1 hF)
          (ih h1 tAddr h' hG)

theorem heapMerge_frame : ∀ (fuel : Nat) (h : Heap) (ds : List HVal) (h' : Heap) (r : Nat),
    heapMerge fuel h ds = some (h', r) →
    frameFrom h h' h.length ∧ h.length ≤ r := by
  intro fuel
  induction fuel with
  | zero =>
    intro h ds h' r hm
    exact Option.noConfusion hm
  | succ fuel ih =>
    intro h ds h' r hm
    unfold heapMerge at hm
    cases hG : heapGoDictsP (fun h2 ds2 => heapMerge fuel h2 ds2)
        (h ++ [HObj.hdict []]) h.length ds with
    | none =>
      rw [hG] at hm
      exact Option.noConfusion hm
    | some h1 =>
      rw [hG] at hm
      have hpair := Option.some.inj hm
      have hh : h' = h1 := (congrArg Prod.fst hpair).symm
      have hr : r = h.length := (congrArg Prod.snd hpair).symm
      subst hh
      subst hr
      have Hrec : HrecFrame (fun h2 ds2 => heapMerge fuel h2 ds2) :=
        fun h2 ds2 h3 r3 hm2 => ih h2 ds2 h3 r3 hm2
      obtain ⟨hl, hp⟩ := heapGoDictsP_frame _ Hrec ds (h ++ [HObj.hdict []]) h.length _ hG
      refine ⟨⟨?_, ?_⟩, Nat.le_refl _⟩
      · calc h.length ≤ (h ++ [HObj.hdict []]).length := by simp
          _ ≤ _ := hl
      · intro b obj hb hbex hg
        have hg2 : (h ++ [HObj.hdict []]).get? b = some obj := by
          rw [List.get?_append hb]
          exact hg
        exact hp b obj (by simp; omega) hbex hg2

/-- **C5 (amended).** The merge does mutate its input — the approved
counterexample shows the `"!reset!"` key being deleted in place from the
incoming layer's own sub-dict — but that is the only in-place change the
merge can ever make: after any successful merge, every pre-existing heap
cell either still holds exactly the object it held before, or held a
dict and now holds that same dict with `"!reset!"` entries deleted in
place (each deletion performed while the key was present, mirroring the
guarded `del target[k]["!reset!"]`).  Lists and all other objects are
never edited in place. -/
theorem claim_C5_amended (fuel : Nat) (h h' : Heap) (ds : List HVal) (r b : Nat)
    (obj : HObj) (hm : heapMerge fuel h ds = some (h', r)) (hb : h.get? b = some obj) :
    ∃ obj', h'.get? b = some obj' ∧ objEvol obj obj' := by
  obtain ⟨⟨hl, hp⟩, _⟩ := heapMerge_frame fuel h ds h' r hm
  have hblt : b < h.length := (List.get?_eq_some.mp hb).1
  exact hp b obj hblt (Nat.ne_of_lt hblt) hb


/-- Witness for the amended C5 at the example input `{a:{x:1}}` merged
with `{a:{"!reset!":true, z:9}}`: cell 2 (the incoming layer's own
sub-dict) evolves by sentinel deletion. -/
theorem claim_C5_witness :
    ∃ obj', ([HObj.hdict [("x", HVal.hint 1)],
              HObj.hdict [("a", HVal.href 0)],
              HObj.hdict [("z", HVal.hint 9)],
              HObj.hdict [("a", HVal.href 2)],
              HObj.hdict [("a", HVal.href 2)]] : Heap).get? 2 = some obj'
      ∧ objEvol (HObj.hdict [("!reset!", HVal.hbool true), ("z", HVal.hint 9)]) obj' :=
  claim_C5_amended 20 exampleMergeHeap
    [HObj.hdict [("x", HVal.hint 1)],
     HObj.hdict [("a", HVal.href 0)],
     HObj.hdict [("z", HVal.hint 9)],
     HObj.hdict [("a", HVal.href 2)],
     HObj.hdict [("a", HVal.href 2)]]
    [HVal.href 1, HVal.href 3] 4 2
    (HObj.hdict [("!reset!", HVal.hbool true), ("z", HVal.hint 9)])
    rfl rfl
